import Mathlib

/- Verification development for a pair of routing-problem implementations:
   an orientation (waste-collection) variant in base.py and a closed-tour
   variant in tsp.py.  Python lists and sets are modelled as Lean lists (a
   list also records the iteration order of a set), in-place mutation as
   functional update, float arithmetic as exact arithmetic in an ordered
   field, and a method that can raise an exception as a function returning
   the object state at the raise point together with an error flag. -/

namespace S3

/-- Python set.add on a set modelled as its (duplicate-free) iteration order:
no change when the element is present, otherwise it is appended. -/
def pySetAdd {β : Type} [DecidableEq β] (l : List β) (x : β) : List β :=
  if x ∈ l then l else l ++ [x]

/-- Python builtin min of a list of numbers; the [] case raises in Python and
is only ever reached here behind guards, so it is given a junk value 0. -/
def pyMin : List ℤ → ℤ
  | [] => 0
  | x :: xs => xs.foldl min x

/-- Python builtin max of a list of numbers; [] as in pyMin. -/
def pyMax : List ℤ → ℤ
  | [] => 0
  | x :: xs => xs.foldl max x

namespace Base

/-- Cost tables of base.py Problem.  Rows are total functions on ℤ since the
code indexes them with container ids and the sentinels -1 and n.  The input
tables are parsed with int() in from_textio, and obj_value only ever
accumulates sums and differences of their entries, so although Python keeps
them in floats every value is exactly an integer and the arithmetic is
modelled in ℤ. -/
structure Problem where
  n : ℕ
  depot_to_container : ℤ → ℤ → ℤ
  container_to_plant : ℤ → ℤ → ℤ
  container_to_container : ℤ → ℤ → ℤ → ℤ

/-- base.py Component: a (node, direction) pair.  Python also passes the
sentinels node = -1 (depot) and node = n (plant) with direction None; the
direction of such a virtual component is never read, so it is represented by
an arbitrary integer (0 below). -/
structure Component where
  node : ℤ
  direction : ℤ
  deriving DecidableEq, Repr

/-- base.py LocalMove: two positions and the new direction for each. -/
structure LocalMove where
  i : ℕ
  j : ℕ
  i_dir : ℤ
  j_dir : ℤ
  deriving DecidableEq, Repr

/-- base.py Solution state.  picked and not_picked are Python sets, modelled
as duplicate-free lists recording their iteration order. -/
structure Solution where
  problem : Problem
  containers : List ℤ
  directions : List ℤ
  picked : List ℤ
  not_picked : List ℤ
  obj_value : ℤ

/-- base.py Solution.connection_cost.  The Python expression
int(str(a) + str(b), 2) for direction bits a, b in {0, 1} equals 2 * a + b. -/
def Solution.connection_cost (s : Solution) (last c : Component) : ℤ :=
  if last.node = -1 then s.problem.depot_to_container c.direction c.node
  else if c.node = (s.problem.n : ℤ) then
    s.problem.container_to_plant last.direction last.node
  else
    s.problem.container_to_container (2 * last.direction + c.direction) last.node c.node

/-- base.py Solution.add, as a state transformer that also reports whether
the KeyError of not_picked.remove fires.  The Python method updates
obj_value, appends to containers and directions and calls picked.add before
not_picked.remove, so on error the returned state already carries those
mutations. -/
def Solution.addRun (s : Solution) (c : Component) : Solution × Bool :=
  let ov := s.obj_value +
    (if s.containers.isEmpty then s.problem.depot_to_container c.direction c.node
     else s.connection_cost ⟨s.containers.getLastD 0, s.directions.getLastD 0⟩ c)
  let s1 : Solution :=
    { s with obj_value := ov,
             containers := s.containers ++ [c.node],
             directions := s.directions ++ [c.direction],
             picked := pySetAdd s.picked c.node }
  if c.node ∈ s1.not_picked then
    ({ s1 with not_picked := s1.not_picked.erase c.node }, false)
  else (s1, true)

/-- The state after base.py Solution.add (at the raise point when it raises). -/
def Solution.add (s : Solution) (c : Component) : Solution :=
  (s.addRun c).1

/-- base.py Solution.step: swap the containers at positions i and j and
overwrite the directions there.  obj_value is not touched by the source. -/
def Solution.step (s : Solution) (m : LocalMove) : Solution :=
  let tmp := s.containers.getD m.i 0
  { s with
    containers := (s.containers.set m.i (s.containers.getD m.j 0)).set m.j tmp,
    directions := (s.directions.set m.i m.i_dir).set m.j m.j_dir }

/-- base.py Solution.objective. -/
def Solution.objective (s : Solution) : Option ℤ :=
  if 0 < s.not_picked.length then none
  else some (s.obj_value +
    s.problem.container_to_plant (s.directions.getLastD 0) (s.containers.getLastD 0))

/-- base.py Solution.get_minimal_connections. -/
def Solution.get_minimal_connections (s : Solution) (cs : List ℤ) : ℤ :=
  (cs.map (fun dest =>
    let options := cs.flatMap (fun dep =>
      (List.range 4).filterMap (fun d =>
        if dep ≠ dest then some (s.problem.container_to_container (d : ℤ) dep dest)
        else none))
    if 0 < options.length then pyMin options else 0)).sum
  + pyMin (cs.flatMap (fun dep =>
      (List.range 2).map (fun d => s.problem.container_to_plant (d : ℤ) dep)))

/-- base.py Solution.lower_bound. -/
def Solution.lower_bound (s : Solution) : Option ℤ :=
  if s.not_picked.length = 0 then none
  else some (s.obj_value + s.get_minimal_connections s.not_picked)

/-- base.py Solution.is_feasible: all n containers occur in the sequence
(Python compares len(set(containers)) with n). -/
def Solution.is_feasible (s : Solution) : Bool :=
  s.containers.dedup.length = s.problem.n

/-- base.py Solution.add_moves. -/
def Solution.add_moves (s : Solution) : List Component :=
  s.not_picked.flatMap (fun c => [⟨c, 0⟩, ⟨c, 1⟩])

/-- The body of the dir_idx branch shared by local_moves and
random_local_moves_wor in base.py. -/
def dirCase (i j : ℕ) (d : ℕ) : LocalMove :=
  if d = 0 then ⟨i, j, 0, 0⟩
  else if d = 1 then ⟨i, j, 0, 1⟩
  else if d = 2 then ⟨i, j, 1, 0⟩
  else ⟨i, j, 1, 1⟩

/-- base.py Solution.local_moves. -/
def Solution.local_moves (s : Solution) : List LocalMove :=
  (List.range s.problem.n).flatMap (fun i =>
    (List.range' i (s.problem.n - i)).flatMap (fun j =>
      (List.range 4).map (dirCase i j)))

/-- base.py Solution.random_local_moves_wor.  Each call to random.shuffle is
modelled by an arbitrary reordering, supplied as an argument and constrained
to be a permutation of the corresponding range in the theorems below. -/
def Solution.random_local_moves_wor (s : Solution) (sh1 : List ℕ)
    (sh2 : ℕ → List ℕ) (sh3 : ℕ → ℕ → List ℕ) : List LocalMove :=
  sh1.flatMap (fun i => (sh2 i).flatMap (fun j => (sh3 i j).map (dirCase i j)))

/-- The candidate row candidates[dir] built at the start of base.py
Solution.heuristic_add_move: the cost of reaching each container with
orientation dir from the current end of the route (from the depot when the
route is empty). -/
def Solution.candRow (s : Solution) (dir : ℤ) : ℤ → ℤ :=
  if s.containers.isEmpty then s.problem.depot_to_container dir
  else s.problem.container_to_container (2 * s.directions.getLastD 0 + dir)
    (s.containers.getLastD 0)

/-- The initial best value max(candidates[0] + candidates[1]) of
base.py Solution.heuristic_add_move (numpy adds the rows elementwise and max
takes the largest entry). -/
def Solution.hThreshold (s : Solution) : ℤ :=
  pyMax ((List.range s.problem.n).map (fun k => s.candRow 0 (k : ℤ) + s.candRow 1 (k : ℤ)))

/-- The scanning loop of base.py Solution.heuristic_add_move over the
not_picked set: state (best val, best idx, best direction). -/
def bLoop (cand0 cand1 : ℤ → ℤ) : List ℤ → ℤ × Option ℤ × Option ℤ → ℤ × Option ℤ × Option ℤ
  | [], acc => acc
  | idx :: rest, (val, bi, bd) =>
    let a1 : ℤ × Option ℤ × Option ℤ :=
      if cand0 idx < val then (cand0 idx, some idx, some 0) else (val, bi, bd)
    let a2 : ℤ × Option ℤ × Option ℤ :=
      if cand1 idx < a1.1 then (cand1 idx, some idx, some 1) else a1
    bLoop cand0 cand1 rest a2

/-- base.py Solution.heuristic_add_move.  The result some (i?, d?) stands for
the Python Component(i?, d?); when no candidate beats the initial threshold
the fields stay None, i.e. the Python code returns Component(None, None). -/
def Solution.heuristic_add_move (s : Solution) : Option (Option ℤ × Option ℤ) :=
  if s.not_picked.length = 0 then none
  else
    let r := bLoop (s.candRow 0) (s.candRow 1) s.not_picked (s.hThreshold, none, none)
    some (r.2.1, r.2.2)

/-- base.py Problem.empty_solution. -/
def Problem.empty_solution (p : Problem) : Solution :=
  ⟨p, [], [], [], (List.range p.n).map (fun k => (k : ℤ)), 0⟩

/-- Sum of the transition costs between consecutive (container, direction)
pairs of a sequence, via connection_cost. -/
def transSum (s : Solution) : List (ℤ × ℤ) → ℤ
  | (a, da) :: (b, db) :: rest =>
    s.connection_cost ⟨a, da⟩ ⟨b, db⟩ + transSum s ((b, db) :: rest)
  | _ => 0

/-- The recomputed accumulated cost of a base.py Solution, written from the
invariant the spec states for accumulated_cost: the entry cost of the first
element plus the sum of transition costs between consecutive sequence
elements, all read from the cost tables. -/
def Solution.sequence_cost (s : Solution) : ℤ :=
  match s.containers.zip s.directions with
  | [] => 0
  | (c, d) :: rest => s.problem.depot_to_container d c + transSum s ((c, d) :: rest)

/-- base.py Solution.objective_incr_local, translated clause by clause; the
direction slots that Python fills with None are never read (they belong to
virtual endpoint components) and hold 0 here. -/
def Solution.objective_incr_local (s : Solution) (m : LocalMove) : ℤ :=
  let nZ : ℤ := (s.problem.n : ℤ)
  let pc1 : ℤ := if 0 < m.i then s.containers.getD (m.i - 1) 0 else -1
  let pd1 : ℤ := if 0 < m.i then s.directions.getD (m.i - 1) 0 else 0
  let cc1 : ℤ := s.containers.getD m.i 0
  let cd1 : ℤ := s.directions.getD m.i 0
  let fc1 : ℤ := if (m.i : ℤ) < nZ - 1 then s.containers.getD (m.i + 1) 0 else nZ
  let fd1 : ℤ := if (m.i : ℤ) < nZ - 1 then s.directions.getD (m.i + 1) 0 else 0
  let pc2 : ℤ := if 0 < m.j then s.containers.getD (m.j - 1) 0 else -1
  let pd2 : ℤ := if 0 < m.j then s.directions.getD (m.j - 1) 0 else 0
  let cc2 : ℤ := s.containers.getD m.j 0
  let cd2 : ℤ := s.directions.getD m.j 0
  let fc2 : ℤ := if (m.j : ℤ) < nZ - 1 then s.containers.getD (m.j + 1) 0 else nZ
  let fd2 : ℤ := if (m.j : ℤ) < nZ - 1 then s.directions.getD (m.j + 1) 0 else 0
  let objOld :=
    s.connection_cost ⟨pc1, pd1⟩ ⟨cc1, cd1⟩ + s.connection_cost ⟨cc1, cd1⟩ ⟨fc1, fd1⟩ +
    s.connection_cost ⟨pc2, pd2⟩ ⟨cc2, cd2⟩ + s.connection_cost ⟨cc2, cd2⟩ ⟨fc2, fd2⟩
  let objNew :=
    s.connection_cost ⟨pc1, pd1⟩ ⟨cc2, m.j_dir⟩ + s.connection_cost ⟨cc2, m.j_dir⟩ ⟨fc1, fd1⟩ +
    s.connection_cost ⟨pc2, pd2⟩ ⟨cc1, m.i_dir⟩ + s.connection_cost ⟨cc1, m.i_dir⟩ ⟨fc2, fd2⟩
  objNew - objOld

end Base

namespace TSP

/-- tsp.py Problem: the node count and the distance matrix, modelled as a
total function.  The entry type is kept generic over a linear ordered field
so that concrete instances can use ℚ or ℝ (tsp.py computes with floats). -/
structure Problem (α : Type) where
  nnodes : ℕ
  dist : ℕ → ℕ → α

/-- tsp.py Component: the directed edge (u, v) to append. -/
structure Component where
  u : ℕ
  v : ℕ
  deriving DecidableEq, Repr

/-- tsp.py LocalMove: reverse the slice path[i:j]. -/
structure LocalMove where
  i : ℕ
  j : ℕ
  deriving DecidableEq, Repr

/-- tsp.py Solution state.  used and unused are Python sets, modelled as
duplicate-free lists recording their iteration order. -/
structure Solution (α : Type) where
  problem : Problem α
  start : ℕ
  path : List ℕ
  used : List ℕ
  unused : List ℕ
  dist : α

variable {α : Type} [LinearOrderedCommRing α]

/-- tsp.py Solution.is_feasible. -/
def Solution.is_feasible (s : Solution α) : Bool :=
  s.path.length = s.problem.nnodes + 1

/-- tsp.py Solution.objective. -/
def Solution.objective (s : Solution α) : Option α :=
  if s.path.length = s.problem.nnodes + 1 then some s.dist else none

/-- tsp.py Solution.lower_bound: the current accumulated distance,
unconditionally. -/
def Solution.lower_bound (s : Solution α) : Option α :=
  some s.dist

/-- tsp.py Solution.add_moves. -/
def Solution.add_moves (s : Solution α) : List Component :=
  if s.path.length < s.problem.nnodes then
    s.unused.map (fun v => ⟨s.path.getLastD 0, v⟩)
  else if s.path.length = s.problem.nnodes then
    [⟨s.path.getLastD 0, s.start⟩]
  else []

/-- tsp.py Solution.local_moves: i in range(1, len(path)), j in
range(i + 2, len(path)). -/
def Solution.local_moves (s : Solution α) : List LocalMove :=
  (List.range' 1 (s.path.length - 1)).flatMap (fun i =>
    (List.range' (i + 2) (s.path.length - (i + 2))).map (fun j => ⟨i, j⟩))

/-- Modelled from the spec: sample2 comes from api.utils, which is not among
the sources here.  Per the spec the without-replacement enumerator must
eventually yield every candidate exactly once in some random order, so a
call sample2(n, m) is modelled as an arbitrary permutation (constrained in
the theorems) of this domain of index pairs. -/
def sample2Domain (n m : ℕ) : List (ℕ × ℕ) :=
  (List.range n).flatMap (fun i => (List.range m).map (fun j => (i, j)))

/-- tsp.py Solution.random_local_moves_wor: filter the stream of sampled
index pairs, keeping those with i >= 1 and j >= i + 2. -/
def Solution.random_local_moves_wor (s : Solution α) (pairs : List (ℕ × ℕ)) :
    List LocalMove :=
  pairs.filterMap (fun ij =>
    if 1 ≤ ij.1 ∧ ij.1 + 2 ≤ ij.2 then some ⟨ij.1, ij.2⟩ else none)

/-- The scanning loop of tsp.py Solution.heuristic_add_move over the unused
set: best is updated whenever bestd is None or the new distance beats it. -/
def hLoop (p : Problem α) (u : ℕ) :
    List ℕ → Option Component × Option α → Option Component × Option α
  | [], acc => acc
  | v :: rest, (best, bestd) =>
    match bestd with
    | none => hLoop p u rest (some ⟨u, v⟩, some (p.dist u v))
    | some bd =>
      if p.dist u v < bd then hLoop p u rest (some ⟨u, v⟩, some (p.dist u v))
      else hLoop p u rest (best, some bd)

/-- tsp.py Solution.heuristic_add_move. -/
def Solution.heuristic_add_move (s : Solution α) : Option Component :=
  if s.path.length < s.problem.nnodes then
    (hLoop s.problem (s.path.getLastD 0) s.unused (none, none)).1
  else if s.path.length = s.problem.nnodes then
    some ⟨s.path.getLastD 0, s.start⟩
  else none

/-- tsp.py Solution.add, as a state transformer that also reports whether
the KeyError of unused.remove fires.  Python appends to path first, so on
error the returned state already carries the appended node, while used and
dist are still untouched. -/
def Solution.addRun (s : Solution α) (c : Component) : Solution α × Bool :=
  let s1 : Solution α := { s with path := s.path ++ [c.v] }
  if c.v ≠ s.start then
    if c.v ∈ s1.unused then
      let s2 : Solution α := { s1 with unused := s1.unused.erase c.v }
      ({ s2 with used := pySetAdd s2.used c.v,
                 dist := s2.dist + s.problem.dist c.u c.v }, false)
    else (s1, true)
  else
    ({ s1 with used := pySetAdd s1.used c.v,
               dist := s1.dist + s.problem.dist c.u c.v }, false)

/-- The state after tsp.py Solution.add (at the raise point when it raises). -/
def Solution.add (s : Solution α) (c : Component) : Solution α :=
  (s.addRun c).1

/-- tsp.py Solution.step: the two edge costs at the slice boundary are
subtracted, path[i:j] is reversed in place, and the two new boundary edge
costs (read from the updated path) are added. -/
def Solution.step (s : Solution α) (m : LocalMove) : Solution α :=
  let d1 := s.problem.dist (s.path.getD (m.i - 1) 0) (s.path.getD m.i 0)
  let d2 := s.problem.dist (s.path.getD (m.j - 1) 0) (s.path.getD m.j 0)
  let newPath := s.path.take m.i ++ ((s.path.drop m.i).take (m.j - m.i)).reverse
    ++ s.path.drop m.j
  let d3 := s.problem.dist (newPath.getD (m.i - 1) 0) (newPath.getD m.i 0)
  let d4 := s.problem.dist (newPath.getD (m.j - 1) 0) (newPath.getD m.j 0)
  { s with path := newPath, dist := s.dist - d1 - d2 + d3 + d4 }

/-- tsp.py Solution.objective_incr_local. -/
def Solution.objective_incr_local (s : Solution α) (m : LocalMove) : α :=
  let ndist := s.dist
    - s.problem.dist (s.path.getD (m.i - 1) 0) (s.path.getD m.i 0)
    - s.problem.dist (s.path.getD (m.j - 1) 0) (s.path.getD m.j 0)
    + s.problem.dist (s.path.getD (m.i - 1) 0) (s.path.getD (m.j - 1) 0)
    + s.problem.dist (s.path.getD m.i 0) (s.path.getD m.j 0)
  ndist - s.dist

/-- tsp.py Problem.empty_solution. -/
def Problem.empty_solution (p : Problem α) : Solution α :=
  ⟨p, 0, [0], [0], List.range' 1 (p.nnodes - 1), 0⟩

/-- The recomputation of the accumulated distance that the __debug__ block
of tsp.py Solution.step performs: the sum of dist over consecutive pairs of
the path. -/
def pairSum (p : Problem α) : List ℕ → α
  | a :: b :: rest => p.dist a b + pairSum p (b :: rest)
  | _ => 0

/-- tsp.py Point (float coordinates, modelled as reals). -/
structure Point where
  x : ℝ
  y : ℝ

/-- tsp.py euclidean_dist. -/
noncomputable def euclidean_dist (a b : Point) : ℝ :=
  Real.sqrt ((a.x - b.x) * (a.x - b.x) + (a.y - b.y) * (a.y - b.y))

/-- tsp.py distance_matrix, as a lookup function on the coordinate list. -/
noncomputable def distance_matrix (coords : List Point) : ℕ → ℕ → ℝ :=
  fun i j => euclidean_dist (coords.getD i ⟨0, 0⟩) (coords.getD j ⟨0, 0⟩)

/-- tsp.py Problem built from a coordinate list (the constructor). -/
noncomputable def Problem.ofCoords (coords : List Point) : Problem ℝ :=
  ⟨coords.length, distance_matrix coords⟩

end TSP

/-! Concrete instances used as failing inputs, counterexamples and witnesses. -/

/-- A 2-container orientation instance with direction-independent tables:
depot costs (0, 5), plant costs (2, 9), and inter-container costs
0 -> 1 : 3, 1 -> 0 : 7, 0 on the diagonal. -/
def Pb2 : Base.Problem where
  n := 2
  depot_to_container := fun _ c => if c = 0 then 0 else 5
  container_to_plant := fun _ c => if c = 0 then 2 else 9
  container_to_container := fun _ a b =>
    if a = 0 ∧ b = 1 then 3 else if a = 1 ∧ b = 0 then 7 else 0

/-- The complete tour 0, 1 (all directions 0) of Pb2, built by two adds from
the empty solution; its obj_value is 0 + 3 = 3. -/
def sBad : Base.Solution := ((Pb2.empty_solution).add ⟨0, 0⟩).add ⟨1, 0⟩

/-- The adjacent swap of positions 0 and 1, keeping both directions 0; it is
among the moves local_moves yields on Pb2. -/
def mBad : Base.LocalMove := ⟨0, 1, 0, 0⟩

/-- A 3-container orientation instance: leaving container 0 is free, every
inter-container edge leaving 1 or 2 costs 100, depot and plant cost 0. -/
def Pb3 : Base.Problem where
  n := 3
  depot_to_container := fun _ _ => 0
  container_to_plant := fun _ _ => 0
  container_to_container := fun _ a b => if a = 0 then 0 else 100

/-- The partial solution of Pb3 holding only container 0 (cost so far 0);
containers 1 and 2 are still unvisited. -/
def s3 : Base.Solution := (Pb3.empty_solution).add ⟨0, 0⟩

/-- The completion of s3 that visits 1 then 2; its objective is 100. -/
def comp3 : Base.Solution := (s3.add ⟨1, 0⟩).add ⟨2, 0⟩

/-- The partial solution of Pb2 holding only container 0. -/
def s1c7 : Base.Solution := (Pb2.empty_solution).add ⟨0, 0⟩

/-- A 1-container orientation instance whose cost tables are all zero. -/
def Pb1 : Base.Problem where
  n := 1
  depot_to_container := fun _ _ => 0
  container_to_plant := fun _ _ => 0
  container_to_container := fun _ _ _ => 0

/-- The four corners of the unit square, in the order of spec scenario A. -/
def squareCoords : List TSP.Point := [⟨0, 0⟩, ⟨0, 1⟩, ⟨1, 1⟩, ⟨1, 0⟩]

/-- The closed-tour Problem on the unit square corners. -/
noncomputable def Psq : TSP.Problem ℝ := TSP.Problem.ofCoords squareCoords

/-- The complete square tour 0 1 2 3 0 built by the four adds of spec
scenario A. -/
noncomputable def squareTour : TSP.Solution ℝ :=
  ((((Psq.empty_solution).add ⟨0, 1⟩).add ⟨1, 2⟩).add ⟨2, 3⟩).add ⟨3, 0⟩

/-- A 3-node integer closed-tour Problem with dist i j = i + 2 j, used in
witnesses. -/
def Pq3 : TSP.Problem ℤ := ⟨3, fun i j => (i : ℤ) + 2 * (j : ℤ)⟩

/-- A complete 3-node tour of Pq3 (path length 4), used in witnesses. -/
def stQ : TSP.Solution ℤ := ⟨Pq3, 0, [0, 1, 2, 0], [0, 1, 2], [], 6⟩


namespace Base

/-- The not_picked candidates of heuristic_add_move flattened in scan order:
for each unvisited container, direction 0 then direction 1. -/
def Solution.bItems (s : Solution) : List (ℤ × ℤ) :=
  s.not_picked.flatMap (fun idx => [(idx, 0), (idx, 1)])

/-- The immediate cost heuristic_add_move compares for a flattened
(container, direction) candidate. -/
def Solution.bCost (s : Solution) (it : ℤ × ℤ) : ℤ :=
  if it.2 = 1 then s.candRow 1 it.1 else s.candRow 0 it.1

end Base

/-- Generic strict-improvement scan: the shared shape of the candidate scans
of both heuristic_add_move implementations; the accumulator keeps the best
value so far and the datum of its first attainer. -/
def selectLoop {β γ δ : Type} [LinearOrder δ] (cost : β → δ) (upd : β → γ) :
    List β → δ × Option γ → δ × Option γ
  | [], acc => acc
  | b :: l, (val, best) =>
    if cost b < val then selectLoop cost upd l (cost b, some (upd b))
    else selectLoop cost upd l (val, best)

/-- Split an optional (index, direction) pair into the two Option slots the
scan of base.py heuristic_add_move keeps. -/
def osplit (o : Option (ℤ × ℤ)) : Option ℤ × Option ℤ :=
  match o with
  | none => (none, none)
  | some p => (some p.1, some p.2)

/-- A store of list cells addressed by naturals, with an allocation bound:
the heap of Python list/set objects of one variant. -/
structure Store (β : Type) where
  cells : ℕ → List β
  next : ℕ

/-- Read a cell. -/
def Store.read {β : Type} (st : Store β) (r : ℕ) : List β := st.cells r

/-- Overwrite a cell in place (Python list/set mutation). -/
def Store.write {β : Type} (st : Store β) (r : ℕ) (v : List β) : Store β :=
  ⟨fun x => if x = r then v else st.cells x, st.next⟩

/-- Allocate a fresh cell holding v (Python copy(...) of a list/set). -/
def Store.alloc {β : Type} (st : Store β) (v : List β) : ℕ × Store β :=
  (st.next, ⟨fun x => if x = st.next then v else st.cells x, st.next + 1⟩)

namespace TSP

/-- A tsp.py Solution object at heap level: the mutable list/set attributes
path, used and unused are references into a Store, problem is a reference
into an immutable environment of Problem objects, and the scalar attributes
start and dist live in the object itself. -/
structure HSolution (α : Type) where
  problemRef : ℕ
  start : ℕ
  pathRef : ℕ
  usedRef : ℕ
  unusedRef : ℕ
  dist : α

/-- The value-level Solution an HSolution denotes under a store and an
environment of Problem objects. -/
def hsol {α : Type} (env : ℕ → Problem α) (st : Store ℕ) (h : HSolution α) :
    Solution α :=
  ⟨env h.problemRef, h.start, st.read h.pathRef, st.read h.usedRef,
   st.read h.unusedRef, h.dist⟩

/-- tsp.py Solution.copy at heap level: copy(...) allocates a fresh cell per
list/set attribute with the same contents; problem is shared by reference
and the scalars are copied by value. -/
def hcopy {α : Type} (st : Store ℕ) (h : HSolution α) : HSolution α × Store ℕ :=
  let a1 := st.alloc (st.read h.pathRef)
  let a2 := a1.2.alloc (st.read h.usedRef)
  let a3 := a2.2.alloc (st.read h.unusedRef)
  ({ h with pathRef := a1.1, usedRef := a2.1, unusedRef := a3.1 }, a3.2)

variable {α : Type} [LinearOrderedCommRing α]

/-- tsp.py Solution.add at heap level: run the value-level method on the
denoted Solution and write the updated attributes back into the object's
own cells. -/
def hadd (env : ℕ → Problem α) (h : HSolution α) (st : Store ℕ) (c : Component) :
    HSolution α × Store ℕ :=
  let s := (hsol env st h).add c
  ({ h with dist := s.dist },
   ((st.write h.pathRef s.path).write h.usedRef s.used).write h.unusedRef s.unused)

/-- tsp.py Solution.step at heap level. -/
def hstep (env : ℕ → Problem α) (h : HSolution α) (st : Store ℕ) (m : LocalMove) :
    HSolution α × Store ℕ :=
  let s := (hsol env st h).step m
  ({ h with dist := s.dist },
   ((st.write h.pathRef s.path).write h.usedRef s.used).write h.unusedRef s.unused)

/-- One mutation of a tsp.py Solution object. -/
inductive HOp where
  | addc : Component → HOp
  | stepm : LocalMove → HOp

/-- Run a sequence of mutations against one heap object. -/
def hrun (env : ℕ → Problem α) : HSolution α → Store ℕ → List HOp → HSolution α × Store ℕ
  | h, st, [] => (h, st)
  | h, st, HOp.addc c :: ops => hrun env (hadd env h st c).1 (hadd env h st c).2 ops
  | h, st, HOp.stepm m :: ops => hrun env (hstep env h st m).1 (hstep env h st m).2 ops

end TSP

namespace Base

/-- A base.py Solution object at heap level, as in TSP.HSolution but with
the four mutable attributes containers, directions, picked, not_picked. -/
structure HSolution where
  problemRef : ℕ
  containersRef : ℕ
  directionsRef : ℕ
  pickedRef : ℕ
  notPickedRef : ℕ
  obj_value : ℤ

/-- The value-level Solution a Base.HSolution denotes. -/
def hsol (env : ℕ → Problem) (st : Store ℤ) (h : HSolution) : Solution :=
  ⟨env h.problemRef, st.read h.containersRef, st.read h.directionsRef,
   st.read h.pickedRef, st.read h.notPickedRef, h.obj_value⟩

/-- base.py Solution.copy at heap level. -/
def hcopy (st : Store ℤ) (h : HSolution) : HSolution × Store ℤ :=
  let a1 := st.alloc (st.read h.containersRef)
  let a2 := a1.2.alloc (st.read h.directionsRef)
  let a3 := a2.2.alloc (st.read h.pickedRef)
  let a4 := a3.2.alloc (st.read h.notPickedRef)
  ({ h with containersRef := a1.1, directionsRef := a2.1,
            pickedRef := a3.1, notPickedRef := a4.1 }, a4.2)

/-- base.py Solution.add at heap level (state at the raise point on error). -/
def hadd (env : ℕ → Problem) (h : HSolution) (st : Store ℤ) (c : Component) :
    HSolution × Store ℤ :=
  let s := (hsol env st h).add c
  ({ h with obj_value := s.obj_value },
   (((st.write h.containersRef s.containers).write h.directionsRef s.directions).write
      h.pickedRef s.picked).write h.notPickedRef s.not_picked)

/-- base.py Solution.step at heap level. -/
def hstep (env : ℕ → Problem) (h : HSolution) (st : Store ℤ) (m : LocalMove) :
    HSolution × Store ℤ :=
  let s := (hsol env st h).step m
  ({ h with obj_value := s.obj_value },
   (((st.write h.containersRef s.containers).write h.directionsRef s.directions).write
      h.pickedRef s.picked).write h.notPickedRef s.not_picked)

/-- One mutation of a base.py Solution object. -/
inductive HOp where
  | addc : Component → HOp
  | stepm : LocalMove → HOp

/-- Run a sequence of mutations against one heap object. -/
def hrun (env : ℕ → Problem) : HSolution → Store ℤ → List HOp → HSolution × Store ℤ
  | h, st, [] => (h, st)
  | h, st, HOp.addc c :: ops => hrun env (hadd env h st c).1 (hadd env h st c).2 ops
  | h, st, HOp.stepm m :: ops => hrun env (hstep env h st m).1 (hstep env h st m).2 ops

end Base

/-- A concrete 3-cell heap holding a fresh closed-tour solution, used in the
witness of the copy-independence theorem. -/
def stT : Store ℕ :=
  ⟨fun r => if r = 0 then [0] else if r = 1 then [0] else if r = 2 then [1, 2] else [], 3⟩

/-- The heap object denoting the fresh closed-tour solution in stT. -/
def hT : TSP.HSolution ℤ := ⟨0, 0, 0, 1, 2, 0⟩

/-- A concrete empty 4-cell heap for the orientation variant. -/
def stB : Store ℤ := ⟨fun _ => [], 4⟩

/-- The heap object denoting an empty orientation solution in stB. -/
def hB : Base.HSolution := ⟨0, 0, 1, 2, 3, 0⟩

/-! Claim theorems, counterexamples and witnesses. -/

/-- Claim C1: the pure delta routine is claimed to return exactly
objective(after step) - objective(before) for every reachable state and
valid move of either variant.  On the reachable complete Pb2 tour sBad the
valid local move mBad (an adjacent swap from local_moves) yields delta -8
while the objective goes from 12 to 5, a change of -7: the orientation
variant's objective_incr_local contradicts its own docstring. -/
theorem c1_base_delta_mismatch :
    mBad ∈ sBad.local_moves ∧
    sBad.objective = some 12 ∧
    (sBad.step mBad).objective = some 5 ∧
    sBad.objective_incr_local mBad = -8 ∧
    sBad.objective_incr_local mBad ≠ 5 - 12 := by
  decide

/-- Claim C2: the stored accumulated cost is claimed to equal the recomputed
sum of transition costs after every mutation of either variant.  After the
valid local move mBad on the reachable Pb2 tour sBad, obj_value is still 3
(base.py Solution.step never touches it) while the recomputed sequence cost
is 12. -/
theorem c2_base_step_stale_cost :
    mBad ∈ sBad.local_moves ∧
    (sBad.step mBad).obj_value = 3 ∧
    (sBad.step mBad).sequence_cost = 12 ∧
    (sBad.step mBad).obj_value ≠ (sBad.step mBad).sequence_cost := by
  decide

/-- Claim C3, counterexample: on the Pb3 partial solution s3 (two unvisited
containers), lower_bound returns 200, yet the feasible completion comp3
reached from s3 by two add moves (both drawn from add_moves) has objective
100: the relaxation is not admissible, because the minimum incoming cost of
each unvisited container is taken only over other unvisited containers and
ignores the cheap edges leaving the already-visited container 0. -/
theorem c3_counterexample :
    s3.lower_bound = some 200 ∧
    (⟨1, 0⟩ : Base.Component) ∈ s3.add_moves ∧
    (⟨2, 0⟩ : Base.Component) ∈ (s3.add ⟨1, 0⟩).add_moves ∧
    comp3.objective = some 100 ∧
    comp3.is_feasible = true ∧
    ¬ ((200 : ℤ) ≤ (100 : ℤ)) := by
  decide

/-- Claim C7, counterexample: adding the already-visited container 0 to the
Pb2 partial solution s1c7 does raise (the KeyError of not_picked.remove),
but the state at the raise point is not the original state: the sequence
has already been extended. -/
theorem c7_counterexample :
    (0 : ℤ) ∈ s1c7.picked ∧
    (s1c7.addRun ⟨0, 1⟩).2 = true ∧
    (s1c7.addRun ⟨0, 1⟩).1.containers ≠ s1c7.containers := by
  decide

/-- Claim C8, counterexample: base.py local_moves includes moves touching
position 0, and stepping the reachable Pb2 tour sBad with mBad changes the
first element of the sequence from 0 to 1. -/
theorem c8_counterexample :
    mBad ∈ sBad.local_moves ∧
    sBad.containers ≠ [] ∧
    (sBad.step mBad).containers.head? ≠ sBad.containers.head? := by
  decide

/-- The concrete square tour, field by field. -/
theorem squareTour_path : squareTour.path = [0, 1, 2, 3, 0] := rfl

/-- The problem of the square tour has 4 nodes. -/
theorem squareTour_nnodes : squareTour.problem.nnodes = 4 := rfl

/-- The accumulated distance of the square tour as a sum of matrix entries. -/
theorem squareTour_dist_expand :
    squareTour.dist = 0 + Psq.dist 0 1 + Psq.dist 1 2 + Psq.dist 2 3 + Psq.dist 3 0 := rfl

/-- The square tour shares its problem with Psq. -/
theorem squareTour_problem : squareTour.problem = Psq := rfl

/-- Unit-square distance: corner 0 to corner 1. -/
theorem Psq_dist01 : Psq.dist 0 1 = 1 := by
  simp [Psq, TSP.Problem.ofCoords, TSP.distance_matrix, TSP.euclidean_dist, squareCoords]

/-- Unit-square distance: corner 1 to corner 2. -/
theorem Psq_dist12 : Psq.dist 1 2 = 1 := by
  simp [Psq, TSP.Problem.ofCoords, TSP.distance_matrix, TSP.euclidean_dist, squareCoords]

/-- Unit-square distance: corner 2 to corner 3. -/
theorem Psq_dist23 : Psq.dist 2 3 = 1 := by
  simp [Psq, TSP.Problem.ofCoords, TSP.distance_matrix, TSP.euclidean_dist, squareCoords]

/-- Unit-square distance: corner 3 back to corner 0. -/
theorem Psq_dist30 : Psq.dist 3 0 = 1 := by
  simp [Psq, TSP.Problem.ofCoords, TSP.distance_matrix, TSP.euclidean_dist, squareCoords]

/-- Unit-square distance: corner 0 to corner 3. -/
theorem Psq_dist03 : Psq.dist 0 3 = 1 := by
  simp [Psq, TSP.Problem.ofCoords, TSP.distance_matrix, TSP.euclidean_dist, squareCoords]

/-- Unit-square distance: corner 1 to corner 0. -/
theorem Psq_dist10 : Psq.dist 1 0 = 1 := by
  simp [Psq, TSP.Problem.ofCoords, TSP.distance_matrix, TSP.euclidean_dist, squareCoords]

/-- Unit-square diagonal: corner 0 to corner 2. -/
theorem Psq_dist02 : Psq.dist 0 2 = Real.sqrt 2 := by
  simp [Psq, TSP.Problem.ofCoords, TSP.distance_matrix, TSP.euclidean_dist, squareCoords]
  norm_num

/-- Unit-square diagonal: corner 1 to corner 3. -/
theorem Psq_dist13 : Psq.dist 1 3 = Real.sqrt 2 := by
  simp [Psq, TSP.Problem.ofCoords, TSP.distance_matrix, TSP.euclidean_dist, squareCoords]
  norm_num

/-- The accumulated distance of the square tour is 4. -/
theorem squareTour_dist : squareTour.dist = 4 := by
  rw [squareTour_dist_expand, Psq_dist01, Psq_dist12, Psq_dist23, Psq_dist30]
  norm_num

/-- Claim C4, counterexample: the square tour is complete (feasible), yet the
closed-tour lower_bound is defined there (it returns the accumulated dist
unconditionally), where the claim demands None. -/
theorem c4_counterexample :
    squareTour.is_feasible = true ∧ squareTour.lower_bound ≠ none := by
  exact ⟨rfl, by simp [TSP.Solution.lower_bound]⟩

/-- Claim C4, amended: the orientation variant returns the accumulated cost
plus the remaining-cost estimate exactly when units remain unvisited and
None when the solution is complete; the closed-tour variant instead returns
the accumulated dist unconditionally, also on complete solutions. -/
theorem c4_amended :
    (∀ s : Base.Solution,
        (s.lower_bound = none ↔ s.not_picked = []) ∧
        (s.not_picked ≠ [] →
          s.lower_bound = some (s.obj_value + s.get_minimal_connections s.not_picked))) ∧
    (∀ (β : Type) (s : TSP.Solution β), s.lower_bound = some s.dist) := by
  constructor
  · intro s
    constructor
    · simp [Base.Solution.lower_bound, List.length_eq_zero]
    · intro h
      simp [Base.Solution.lower_bound, List.length_eq_zero, h]
  · intro β s
    rfl

/-- Witness for c4_amended: a partial orientation solution and a complete
closed-tour solution. -/
theorem c4_amended_witness :
    s3.lower_bound = some (s3.obj_value + s3.get_minimal_connections s3.not_picked) ∧
    stQ.lower_bound = some stQ.dist :=
  ⟨(c4_amended.1 s3).2 (by decide), c4_amended.2 ℤ stQ⟩

/-- Claim C5, counterexample: on the square tour the 2-opt move
LocalMove(1, 3) (reversing positions [1, 3)) is a valid local move, but its
reported increment is 2 sqrt 2 - 2, not 0: the reversal exchanges the
boundary edges (0,1), (2,3) for the diagonals (0,2), (1,3). -/
theorem c5_counterexample :
    (⟨1, 3⟩ : TSP.LocalMove) ∈ squareTour.local_moves ∧
    squareTour.objective_incr_local ⟨1, 3⟩ ≠ 0 := by
  constructor
  · decide
  · have h2 : Real.sqrt 2 ≠ 1 := by
      simp [Real.sqrt_eq_one]
    simp [TSP.Solution.objective_incr_local, squareTour_path, Psq_dist01, Psq_dist23,
      Psq_dist02, Psq_dist13, squareTour_problem]
    intro h
    apply h2
    linarith

/-- Claim C5, amended: the four adds of scenario A produce objective 4 on a
feasible tour, and the 2-opt whose increment is 0 is LocalMove(1, 4)
(reversing the whole interior segment [1, 4)), while LocalMove(1, 3) has
increment 2 sqrt 2 - 2. -/
theorem c5_amended :
    squareTour.objective = some 4 ∧ squareTour.is_feasible = true ∧
    (⟨1, 4⟩ : TSP.LocalMove) ∈ squareTour.local_moves ∧
    squareTour.objective_incr_local ⟨1, 4⟩ = 0 := by
  refine ⟨?_, rfl, by decide, ?_⟩
  · simp [TSP.Solution.objective, squareTour_path, squareTour_nnodes, squareTour_dist]
  · simp [TSP.Solution.objective_incr_local, squareTour_path, Psq_dist01, Psq_dist30,
      Psq_dist03, Psq_dist10, squareTour_problem]

/-- Claim C9, counterexample: on the all-zero 1-container instance Pb1 the
empty solution has an unvisited container, yet heuristic_add_move returns
Component(None, None) - no candidate is strictly below the initial
threshold max(candidates[0] + candidates[1]) = 0, so the scan never selects
one - instead of a minimal-cost candidate. -/
theorem c9_counterexample :
    (Pb1.empty_solution).not_picked ≠ [] ∧
    (Pb1.empty_solution).heuristic_add_move = some (none, none) := by
  decide


/-- Membership in the closed-tour local move list, in terms of index bounds. -/
theorem tsp_mem_local_moves {β : Type} (s : TSP.Solution β) (m : TSP.LocalMove) :
    m ∈ s.local_moves ↔ 1 ≤ m.i ∧ m.i + 2 ≤ m.j ∧ m.j < s.path.length := by
  simp only [TSP.Solution.local_moves, List.mem_flatMap, List.mem_map, List.mem_range'_1]
  constructor
  · rintro ⟨i, hi, j, hj, rfl⟩
    show 1 ≤ i ∧ i + 2 ≤ j ∧ j < s.path.length
    omega
  · rintro ⟨h1, h2, h3⟩
    exact ⟨m.i, by omega, m.j, by omega, rfl⟩

/-- The closed-tour local move list has no duplicates. -/
theorem tsp_local_moves_nodup {β : Type} (s : TSP.Solution β) : s.local_moves.Nodup := by
  unfold TSP.Solution.local_moves
  rw [List.nodup_flatMap]
  constructor
  · intro i _
    exact (List.nodup_range' _ _).map (fun a b h => congrArg TSP.LocalMove.j h)
  · refine List.Pairwise.imp ?_ (List.nodup_range' _ _)
    intro a b hab
    intro m hma hmb
    simp only [List.mem_map] at hma hmb
    obtain ⟨j, _, rfl⟩ := hma
    obtain ⟨j2, _, hj2⟩ := hmb
    cases hj2
    exact hab rfl

/-- The sample2 domain of index pairs has no duplicates. -/
theorem sample2Domain_nodup (n m : ℕ) : (TSP.sample2Domain n m).Nodup :=
  List.Nodup.product (List.nodup_range n) (List.nodup_range m)

/-- Claim C6: whatever orders the shuffles produce, random_local_moves_wor
yields exactly the multiset local_moves yields, in both variants (for the
closed-tour variant, sample2 of api.utils is modelled from the spec as an
arbitrary permutation of the full index-pair domain). -/
theorem c6_enumeration :
    (∀ (s : Base.Solution) (sh1 : List ℕ) (sh2 : ℕ → List ℕ) (sh3 : ℕ → ℕ → List ℕ),
        sh1.Perm (List.range s.problem.n) →
        (∀ i, (sh2 i).Perm (List.range' i (s.problem.n - i))) →
        (∀ i j, (sh3 i j).Perm (List.range 4)) →
        (s.random_local_moves_wor sh1 sh2 sh3).Perm s.local_moves) ∧
    (∀ (β : Type) (s : TSP.Solution β) (pairs : List (ℕ × ℕ)),
        pairs.Perm (TSP.sample2Domain s.path.length s.path.length) →
        (s.random_local_moves_wor pairs).Perm s.local_moves) := by
  constructor
  · intro s sh1 sh2 sh3 h1 h2 h3
    unfold Base.Solution.random_local_moves_wor Base.Solution.local_moves
    refine (List.Perm.flatMap_right _ h1).trans (List.Perm.flatMap_left _ ?_)
    intro i _
    exact (List.Perm.flatMap_right _ (h2 i)).trans
      (List.Perm.flatMap_left _ (fun j _ => (h3 i j).map (Base.dirCase i j)))
  · intro β s pairs hp
    unfold TSP.Solution.random_local_moves_wor
    refine (List.Perm.filterMap _ hp).trans ?_
    have hnd : (List.filterMap
        (fun ij => if 1 ≤ ij.1 ∧ ij.1 + 2 ≤ ij.2 then some (⟨ij.1, ij.2⟩ : TSP.LocalMove) else none)
        (TSP.sample2Domain s.path.length s.path.length)).Nodup := by
      refine List.Nodup.filterMap ?_ (sample2Domain_nodup _ _)
      intro a b c hca hcb
      obtain ⟨a1, a2⟩ := a
      obtain ⟨b1, b2⟩ := b
      by_cases ha : 1 ≤ a1 ∧ a1 + 2 ≤ a2
      · by_cases hb : 1 ≤ b1 ∧ b1 + 2 ≤ b2
        · rw [Option.mem_def, if_pos ha] at hca
          rw [Option.mem_def, if_pos hb] at hcb
          injection hca with hc1
          subst hc1
          injection hcb with hc2
          injection hc2 with hi hj
          subst hi
          subst hj
          rfl
        · simp [hb] at hcb
      · simp [ha] at hca
    rw [List.perm_ext_iff_of_nodup hnd (tsp_local_moves_nodup s)]
    intro m
    rw [List.mem_filterMap, tsp_mem_local_moves]
    constructor
    · rintro ⟨ij, hdom, hF⟩
      by_cases hc : 1 ≤ ij.1 ∧ ij.1 + 2 ≤ ij.2
      · simp only [hc, if_pos] at hF
        have h2 := hF
        cases h2
        simp only [TSP.sample2Domain, List.mem_flatMap, List.mem_map, List.mem_range] at hdom
        obtain ⟨a, haa, b, hbb, hab⟩ := hdom
        cases hab
        exact ⟨hc.1, hc.2, hbb⟩
      · simp [hc] at hF
    · rintro ⟨h1, h2, h3⟩
      refine ⟨(m.i, m.j), ?_, ?_⟩
      · simp only [TSP.sample2Domain, List.mem_flatMap, List.mem_map, List.mem_range]
        exact ⟨m.i, by omega, m.j, h3, rfl⟩
      · rw [if_pos (⟨h1, h2⟩ : 1 ≤ m.i ∧ m.i + 2 ≤ m.j)]

/-- Claim C3, amended: with nonnegative cost tables the bound is admissible
when exactly one unit is unvisited: lower_bound is at most the objective of
the completion by any legal add of that unit.  (With two or more unvisited
units c3_counterexample shows the bound can overshoot, since each unit's
minimum incoming edge is taken only over other unvisited units.) -/
theorem c3_amended :
    ∀ (s : Base.Solution) (d dir : ℤ) (lb ob : ℤ),
      (∀ a b, 0 ≤ s.problem.depot_to_container a b) →
      (∀ a b, 0 ≤ s.problem.container_to_plant a b) →
      (∀ a b c, 0 ≤ s.problem.container_to_container a b c) →
      s.not_picked = [d] →
      (dir = 0 ∨ dir = 1) →
      s.lower_bound = some lb →
      (s.add ⟨d, dir⟩).objective = some ob →
      lb ≤ ob := by
  intro s d dir lb ob hd2c hc2p hc2c hnp hdir hlb hob
  simp only [Base.Solution.lower_bound, hnp, List.length_cons, List.length_nil,
    Option.some.injEq, if_neg (by omega : ¬ (1 = 0))] at hlb
  have hmin : s.get_minimal_connections [d] =
      min (s.problem.container_to_plant 0 d) (s.problem.container_to_plant 1 d) := by
    simp [Base.Solution.get_minimal_connections, pyMin,
      show List.range 4 = [0, 1, 2, 3] from rfl, show List.range 2 = [0, 1] from rfl]
  simp only [Base.Solution.add, Base.Solution.addRun, Base.Solution.objective, hnp,
    List.mem_cons, List.not_mem_nil, or_false, if_true, if_false, List.erase_cons_head,
    List.length_nil, lt_irrefl, if_neg (by omega : ¬ (0 < 0)), List.getLastD_concat,
    Option.some.injEq] at hob
  have hedge : 0 ≤ (if s.containers.isEmpty then
      s.problem.depot_to_container dir d
      else s.connection_cost ⟨s.containers.getLastD 0, s.directions.getLastD 0⟩ ⟨d, dir⟩) := by
    split
    · exact hd2c dir d
    · unfold Base.Solution.connection_cost
      split
      · exact hd2c _ _
      · split
        · exact hc2p _ _
        · exact hc2c _ _ _
  have hcp : min (s.problem.container_to_plant 0 d) (s.problem.container_to_plant 1 d) ≤
      s.problem.container_to_plant dir d := by
    rcases hdir with h | h
    · rw [h]
      exact min_le_left _ _
    · rw [h]
      exact min_le_right _ _
  rw [← hlb, hmin]
  rw [← hob]
  linarith

/-- Claim C7, amended: adding an already-visited unit raises the KeyError of
set.remove, but the mutations executed before the raise survive: in the
orientation variant the sequence, directions, picked set and accumulated
cost are already updated (only not_picked is untouched); in the closed-tour
variant the path is already extended (used and dist are untouched), and the
closing add of the start node never raises at all even though the start is
visited. -/
theorem c7_amended :
    (∀ (s : Base.Solution) (c : Base.Component),
        c.node ∉ s.not_picked →
        (s.addRun c).2 = true ∧
        (s.addRun c).1.containers = s.containers ++ [c.node] ∧
        (s.addRun c).1.directions = s.directions ++ [c.direction] ∧
        (s.addRun c).1.picked = pySetAdd s.picked c.node ∧
        (s.addRun c).1.not_picked = s.not_picked ∧
        (s.addRun c).1.obj_value = s.obj_value +
          (if s.containers.isEmpty then s.problem.depot_to_container c.direction c.node
           else s.connection_cost ⟨s.containers.getLastD 0, s.directions.getLastD 0⟩ c)) ∧
    (∀ (β : Type) [LinearOrderedCommRing β] (s : TSP.Solution β) (c : TSP.Component),
        (c.v ≠ s.start → c.v ∉ s.unused →
          (s.addRun c).2 = true ∧
          (s.addRun c).1.path = s.path ++ [c.v] ∧
          (s.addRun c).1.unused = s.unused ∧
          (s.addRun c).1.used = s.used ∧
          (s.addRun c).1.dist = s.dist) ∧
        (c.v = s.start → (s.addRun c).2 = false)) := by
  constructor
  · intro s c hnot
    simp [Base.Solution.addRun, hnot]
  · intro β _ s c
    constructor
    · intro hne hnu
      simp [TSP.Solution.addRun, hne, hnu]
    · intro heq
      simp [TSP.Solution.addRun, heq]

/-- Witness for c3_amended on the all-zero one-container instance. -/
theorem c3_amended_witness :
    (Pb1.empty_solution).lower_bound = some 0 ∧
    ((Pb1.empty_solution).add ⟨0, 0⟩).objective = some 0 ∧ (0 : ℤ) ≤ 0 :=
  ⟨by decide, by decide,
   c3_amended (Pb1.empty_solution) 0 0 0 0 (fun _ _ => le_refl 0) (fun _ _ => le_refl 0)
     (fun _ _ _ => le_refl 0) (by decide) (Or.inl rfl) (by decide) (by decide)⟩

/-- Witness for c6_enumeration: a nontrivial shuffle on the one-container
instance and the reversed pair stream on the concrete tour stQ. -/
theorem c6_enumeration_witness :
    ((Pb1.empty_solution).random_local_moves_wor [0] (fun i => List.range' i (1 - i))
        (fun _ _ => [3, 1, 2, 0])).Perm (Pb1.empty_solution).local_moves ∧
    (stQ.random_local_moves_wor ((TSP.sample2Domain 4 4).reverse)).Perm stQ.local_moves :=
  ⟨c6_enumeration.1 (Pb1.empty_solution) [0] _ _ (by decide) (fun _ => List.Perm.refl _)
      (fun _ _ => by decide),
   c6_enumeration.2 ℤ stQ _ (List.reverse_perm _)⟩

/-- Witness for c7_amended at concrete inputs of both variants. -/
theorem c7_amended_witness :
    (s1c7.addRun ⟨0, 1⟩).2 = true ∧ (stQ.addRun ⟨0, 1⟩).2 = true ∧
    (stQ.addRun ⟨2, 0⟩).2 = false :=
  ⟨(c7_amended.1 s1c7 ⟨0, 1⟩ (by decide)).1,
   ((c7_amended.2 ℤ stQ ⟨0, 1⟩).1 (by decide) (by decide)).1,
   (c7_amended.2 ℤ stQ ⟨2, 0⟩).2 (by decide)⟩

/-- Claim C8, amended: in the closed-tour variant the first path element is
indeed never changed, by add (which only appends) or by step with any move
from local_moves (whose indices start at 1).  In the orientation variant
local_moves includes position 0 and a step there swaps the first element
away, as c8_counterexample shows. -/
theorem c8_amended :
    ∀ (β : Type) [LinearOrderedCommRing β] (s : TSP.Solution β),
      s.path ≠ [] →
      (∀ c : TSP.Component, (s.add c).path.head? = s.path.head?) ∧
      (∀ m ∈ s.local_moves, (s.step m).path.head? = s.path.head?) := by
  intro β _ s hne
  obtain ⟨x, xs, hxs⟩ := List.exists_cons_of_ne_nil hne
  constructor
  · intro c
    have hp : (s.add c).path = s.path ++ [c.v] := by
      unfold TSP.Solution.add TSP.Solution.addRun
      dsimp only
      split_ifs <;> rfl
    rw [hp, hxs]
    simp
  · intro m hm
    rw [tsp_mem_local_moves] at hm
    obtain ⟨k, hk⟩ : ∃ k, m.i = k + 1 := ⟨m.i - 1, by omega⟩
    have hp : (s.step m).path =
        s.path.take m.i ++ ((s.path.drop m.i).take (m.j - m.i)).reverse ++ s.path.drop m.j := rfl
    rw [hp, hxs, hk, List.take_succ_cons]
    simp

/-- Witness for c8_amended on the concrete tour stQ. -/
theorem c8_amended_witness :
    (stQ.add ⟨0, 1⟩).path.head? = stQ.path.head? ∧
    (stQ.step ⟨1, 3⟩).path.head? = stQ.path.head? :=
  ⟨(c8_amended ℤ stQ (by decide)).1 ⟨0, 1⟩,
   (c8_amended ℤ stQ (by decide)).2 ⟨1, 3⟩ (by decide)⟩

/-- A strict-improvement scan that never improves leaves its accumulator
unchanged. -/
theorem selectLoop_no {β γ δ : Type} [LinearOrder δ] (cost : β → δ) (upd : β → γ) :
    ∀ (l : List β) (val : δ) (best : Option γ),
      (∀ b ∈ l, ¬ cost b < val) → selectLoop cost upd l (val, best) = (val, best) := by
  intro l
  induction l with
  | nil => intro val best _; rfl
  | cons b t ih =>
    intro val best h
    have hb : ¬ cost b < val := h b (List.mem_cons_self b t)
    simp only [selectLoop, if_neg hb]
    exact ih val best (fun x hx => h x (List.mem_cons_of_mem b hx))

/-- A strict-improvement scan with some improving element ends on the first
element attaining the minimum: all earlier elements cost strictly more, all
later ones at least as much. -/
theorem selectLoop_found {β γ δ : Type} [LinearOrder δ] (cost : β → δ) (upd : β → γ) :
    ∀ (l : List β) (val : δ) (best : Option γ),
      (∃ b ∈ l, cost b < val) →
      ∃ l₁ b l₂, l = l₁ ++ b :: l₂ ∧ cost b < val ∧
        (∀ x ∈ l₁, cost b < cost x) ∧ (∀ x ∈ l₂, cost b ≤ cost x) ∧
        selectLoop cost upd l (val, best) = (cost b, some (upd b)) := by
  intro l
  induction l with
  | nil =>
    rintro val best ⟨b, hb, _⟩
    exact absurd hb (List.not_mem_nil b)
  | cons b0 t ih =>
    intro val best hex
    by_cases h0 : cost b0 < val
    · by_cases ht : ∃ x ∈ t, cost x < cost b0
      · obtain ⟨l₁, b, l₂, heq, hlt, hpre, hsuf, hrun⟩ := ih (cost b0) (some (upd b0)) ht
        refine ⟨b0 :: l₁, b, l₂, by rw [heq, List.cons_append], lt_trans hlt h0, ?_, hsuf, ?_⟩
        · intro x hx
          rcases List.mem_cons.mp hx with rfl | hx2
          · exact hlt
          · exact hpre x hx2
        · simp only [selectLoop, if_pos h0]
          exact hrun
      · push_neg at ht
        refine ⟨[], b0, t, rfl, h0, ?_, ?_, ?_⟩
        · intro x hx
          cases hx
        · intro x hx
          exact ht x hx
        · simp only [selectLoop, if_pos h0]
          exact selectLoop_no cost upd t (cost b0) (some (upd b0))
            (fun x hx => not_lt.mpr (ht x hx))
    · have hex2 : ∃ x ∈ t, cost x < val := by
        obtain ⟨x, hx, hlt⟩ := hex
        rcases List.mem_cons.mp hx with rfl | hx2
        · exact absurd hlt h0
        · exact ⟨x, hx2, hlt⟩
      obtain ⟨l₁, b, l₂, heq, hlt, hpre, hsuf, hrun⟩ := ih val best hex2
      refine ⟨b0 :: l₁, b, l₂, by rw [heq, List.cons_append], hlt, ?_, hsuf, ?_⟩
      · intro x hx
        rcases List.mem_cons.mp hx with rfl | hx2
        · exact lt_of_lt_of_le hlt (not_lt.mp h0)
        · exact hpre x hx2
      · simp only [selectLoop, if_neg h0]
        exact hrun

/-- The scan of tsp.py heuristic_add_move, once started, is the generic
strict-improvement scan. -/
theorem hLoop_eq_selectLoop {β : Type} [LinearOrderedCommRing β] (p : TSP.Problem β) (u : ℕ) :
    ∀ (l : List ℕ) (c : TSP.Component) (bd : β),
      TSP.hLoop p u l (some c, some bd) =
        ((selectLoop (fun v => p.dist u v) (fun v => TSP.Component.mk u v) l (bd, some c)).2,
         some (selectLoop (fun v => p.dist u v) (fun v => TSP.Component.mk u v) l (bd, some c)).1) := by
  intro l
  induction l with
  | nil => intro c bd; rfl
  | cons v t ih =>
    intro c bd
    by_cases h : p.dist u v < bd
    · simp only [TSP.hLoop, selectLoop, if_pos h]
      exact ih ⟨u, v⟩ (p.dist u v)
    · simp only [TSP.hLoop, selectLoop, if_neg h]
      exact ih c bd

/-- The first scanned element always replaces the initial None accumulator. -/
theorem hLoop_start {β : Type} [LinearOrderedCommRing β] (p : TSP.Problem β) (u v : ℕ)
    (t : List ℕ) :
    TSP.hLoop p u (v :: t) (none, none) =
      TSP.hLoop p u t (some ⟨u, v⟩, some (p.dist u v)) := rfl

/-- The scan of base.py heuristic_add_move is the generic strict-improvement
scan over the flattened (container, direction) candidate list. -/
theorem bLoop_eq_selectLoop (cand0 cand1 : ℤ → ℤ) :
    ∀ (l : List ℤ) (val : ℤ) (acc : Option (ℤ × ℤ)),
      Base.bLoop cand0 cand1 l (val, osplit acc) =
        ((selectLoop (fun it : ℤ × ℤ => if it.2 = 1 then cand1 it.1 else cand0 it.1) id
            (l.flatMap (fun idx => [(idx, 0), (idx, 1)])) (val, acc)).1,
         osplit (selectLoop (fun it : ℤ × ℤ => if it.2 = 1 then cand1 it.1 else cand0 it.1) id
            (l.flatMap (fun idx => [(idx, 0), (idx, 1)])) (val, acc)).2) := by
  intro l
  induction l with
  | nil => intro val acc; rfl
  | cons idx t ih =>
    intro val acc
    rw [List.flatMap_cons]
    set cost := (fun it : ℤ × ℤ => if it.2 = 1 then cand1 it.1 else cand0 it.1) with hcost
    set rest := t.flatMap (fun idx => [(idx, (0:ℤ)), (idx, (1:ℤ))]) with hrest
    set A := (if cand1 idx < (if cand0 idx < val then cand0 idx else val)
      then ((cand1 idx : ℤ), some ((idx, (1:ℤ)) : ℤ × ℤ))
      else if cand0 idx < val then (cand0 idx, some (idx, 0)) else (val, acc)) with hA
    have hL : Base.bLoop cand0 cand1 (idx :: t) (val, osplit acc) =
        Base.bLoop cand0 cand1 t (A.1, osplit A.2) := by
      simp only [Base.bLoop, hA]
      by_cases h0 : cand0 idx < val
      · by_cases h1 : cand1 idx < cand0 idx
        · simp [h0, h1, osplit]
        · simp [h0, h1, osplit]
      · by_cases h1 : cand1 idx < val
        · simp [h0, h1, osplit]
        · simp [h0, h1, osplit]
    have hR : selectLoop cost id ([(idx, (0:ℤ)), (idx, (1:ℤ))] ++ rest) (val, acc) =
        selectLoop cost id rest A := by
      simp only [List.cons_append, List.nil_append, selectLoop, hcost, hA]
      by_cases h0 : cand0 idx < val
      · by_cases h1 : cand1 idx < cand0 idx
        · simp [h0, h1]
        · simp [h0, h1]
      · by_cases h1 : cand1 idx < val
        · simp [h0, h1]
        · simp [h0, h1]
    rw [hL, hR]
    have h2 := ih A.1 A.2
    rw [Prod.mk.eta] at h2
    exact h2

/-- Claim C9, amended: the closed-tour heuristic_add_move returns, on a
proper partial solution with unused nodes, the component to the unused node
of minimal immediate distance, ties broken by the first seen in iteration
order, and returns None only on over-length or exhausted states; the
orientation variant does the same over its flattened (container, direction)
candidates, but only provided some candidate cost is strictly below the
initial threshold max(candidates[0] + candidates[1]) - otherwise it returns
Component(None, None) (see c9_counterexample) - and returns None exactly
when no container is unvisited. -/
theorem c9_amended :
    (∀ s : Base.Solution,
        (s.heuristic_add_move = none ↔ s.not_picked = []) ∧
        (s.not_picked ≠ [] →
          (∃ it ∈ s.bItems, s.bCost it < s.hThreshold) →
          ∃ l₁ it l₂, s.bItems = l₁ ++ it :: l₂ ∧
            s.heuristic_add_move = some (some it.1, some it.2) ∧
            s.bCost it < s.hThreshold ∧
            (∀ jt ∈ l₁, s.bCost it < s.bCost jt) ∧
            (∀ jt ∈ s.bItems, s.bCost it ≤ s.bCost jt))) ∧
    (∀ (β : Type) [inst : LinearOrderedCommRing β] (s : TSP.Solution β),
        (s.path.length < s.problem.nnodes → s.unused ≠ [] →
          ∃ l₁ v l₂, s.unused = l₁ ++ v :: l₂ ∧
            s.heuristic_add_move = some ⟨s.path.getLastD 0, v⟩ ∧
            (∀ w ∈ l₁,
              s.problem.dist (s.path.getLastD 0) v < s.problem.dist (s.path.getLastD 0) w) ∧
            (∀ w ∈ s.unused,
              s.problem.dist (s.path.getLastD 0) v ≤ s.problem.dist (s.path.getLastD 0) w)) ∧
        (s.heuristic_add_move = none →
          s.problem.nnodes < s.path.length ∨ s.unused = [])) := by
  constructor
  · intro s
    constructor
    · constructor
      · intro h
        by_contra hne
        have hlen : ¬ s.not_picked.length = 0 := fun hz => hne (List.length_eq_zero.mp hz)
        unfold Base.Solution.heuristic_add_move at h
        rw [if_neg hlen] at h
        simp at h
      · intro h
        unfold Base.Solution.heuristic_add_move
        rw [if_pos (by rw [h]; rfl)]
    · intro hne hex
      have hlen : ¬ s.not_picked.length = 0 := fun hz => hne (List.length_eq_zero.mp hz)
      obtain ⟨l₁, b, l₂, heq, hblt, hpre, hsuf, hrun⟩ :=
        selectLoop_found s.bCost id s.bItems s.hThreshold none hex
      refine ⟨l₁, b, l₂, heq, ?_, hblt, hpre, ?_⟩
      · unfold Base.Solution.heuristic_add_move
        rw [if_neg hlen]
        have hr : Base.bLoop (s.candRow 0) (s.candRow 1) s.not_picked (s.hThreshold, none, none) =
            ((selectLoop s.bCost id s.bItems (s.hThreshold, none)).1,
             osplit (selectLoop s.bCost id s.bItems (s.hThreshold, none)).2) :=
          bLoop_eq_selectLoop (s.candRow 0) (s.candRow 1) s.not_picked s.hThreshold none
        rw [hr, hrun]
        simp [osplit]
      · intro jt hjt
        rw [heq] at hjt
        rcases List.mem_append.mp hjt with h | h
        · exact le_of_lt (hpre jt h)
        · rcases List.mem_cons.mp h with rfl | h2
          · exact le_refl _
          · exact hsuf jt h2
  · intro β inst s
    constructor
    · intro hlt hne
      obtain ⟨v0, t, hv⟩ := List.exists_cons_of_ne_nil hne
      have hres : s.heuristic_add_move =
          (TSP.hLoop s.problem (s.path.getLastD 0) s.unused (none, none)).1 := by
        unfold TSP.Solution.heuristic_add_move
        rw [if_pos hlt]
      by_cases ht : ∃ x ∈ t,
          s.problem.dist (s.path.getLastD 0) x < s.problem.dist (s.path.getLastD 0) v0
      · obtain ⟨l₁, b, l₂, heq, hblt, hpre, hsuf, hrun⟩ :=
          selectLoop_found (fun v => s.problem.dist (s.path.getLastD 0) v)
            (fun v => TSP.Component.mk (s.path.getLastD 0) v) t
            (s.problem.dist (s.path.getLastD 0) v0) (some ⟨s.path.getLastD 0, v0⟩) ht
        refine ⟨v0 :: l₁, b, l₂, by rw [hv, heq, List.cons_append], ?_, ?_, ?_⟩
        · rw [hres, hv, hLoop_start, hLoop_eq_selectLoop, hrun]
        · intro w hw
          rcases List.mem_cons.mp hw with rfl | h2
          · exact hblt
          · exact hpre w h2
        · intro w hw
          rw [hv] at hw
          rcases List.mem_cons.mp hw with rfl | h2
          · exact le_of_lt hblt
          · rw [heq] at h2
            rcases List.mem_append.mp h2 with h3 | h3
            · exact le_of_lt (hpre w h3)
            · rcases List.mem_cons.mp h3 with rfl | h4
              · exact le_refl _
              · exact hsuf w h4
      · push_neg at ht
        refine ⟨[], v0, t, by rw [hv, List.nil_append], ?_, ?_, ?_⟩
        · rw [hres, hv, hLoop_start, hLoop_eq_selectLoop,
            selectLoop_no _ _ t _ _ (fun x hx => not_lt.mpr (ht x hx))]
        · intro w hw
          cases hw
        · intro w hw
          rw [hv] at hw
          rcases List.mem_cons.mp hw with rfl | h2
          · exact le_refl _
          · exact ht w h2
    · intro hnone
      unfold TSP.Solution.heuristic_add_move at hnone
      by_cases h1 : s.path.length < s.problem.nnodes
      · rw [if_pos h1] at hnone
        right
        by_contra hne
        obtain ⟨v0, t, hv⟩ := List.exists_cons_of_ne_nil hne
        rw [hv, hLoop_start, hLoop_eq_selectLoop] at hnone
        by_cases ht : ∃ x ∈ t,
            s.problem.dist (s.path.getLastD 0) x < s.problem.dist (s.path.getLastD 0) v0
        · obtain ⟨l₁, b, l₂, _, _, _, _, hrun⟩ :=
            selectLoop_found (fun v => s.problem.dist (s.path.getLastD 0) v)
              (fun v => TSP.Component.mk (s.path.getLastD 0) v) t
              (s.problem.dist (s.path.getLastD 0) v0) (some ⟨s.path.getLastD 0, v0⟩) ht
          rw [hrun] at hnone
          simp at hnone
        · push_neg at ht
          rw [selectLoop_no _ _ t _ _ (fun x hx => not_lt.mpr (ht x hx))] at hnone
          simp at hnone
      · rw [if_neg h1] at hnone
        by_cases h2 : s.path.length = s.problem.nnodes
        · rw [if_pos h2] at hnone
          simp at hnone
        · left
          omega

/-- Witness for c9_amended: the Pb2 empty solution (cheapest unvisited
container 0) and the Pq3 empty solution (nearest unused node 1). -/
theorem c9_amended_witness :
    (∃ l₁ it l₂, (Pb2.empty_solution).bItems = l₁ ++ it :: l₂ ∧
        (Pb2.empty_solution).heuristic_add_move = some (some it.1, some it.2) ∧
        (Pb2.empty_solution).bCost it < (Pb2.empty_solution).hThreshold ∧
        (∀ jt ∈ l₁, (Pb2.empty_solution).bCost it < (Pb2.empty_solution).bCost jt) ∧
        (∀ jt ∈ (Pb2.empty_solution).bItems,
          (Pb2.empty_solution).bCost it ≤ (Pb2.empty_solution).bCost jt)) ∧
    (∃ l₁ v l₂, (Pq3.empty_solution).unused = l₁ ++ v :: l₂ ∧
        (Pq3.empty_solution).heuristic_add_move =
          some ⟨(Pq3.empty_solution).path.getLastD 0, v⟩ ∧
        (∀ w ∈ l₁,
          (Pq3.empty_solution).problem.dist ((Pq3.empty_solution).path.getLastD 0) v <
            (Pq3.empty_solution).problem.dist ((Pq3.empty_solution).path.getLastD 0) w) ∧
        (∀ w ∈ (Pq3.empty_solution).unused,
          (Pq3.empty_solution).problem.dist ((Pq3.empty_solution).path.getLastD 0) v ≤
            (Pq3.empty_solution).problem.dist ((Pq3.empty_solution).path.getLastD 0) w)) :=
  ⟨(c9_amended.1 (Pb2.empty_solution)).2 (by decide) (by decide),
   (c9_amended.2 ℤ (Pq3.empty_solution)).1 (by decide) (by decide)⟩

/-- Running any mutation sequence against one closed-tour heap object leaves
its attribute references and every foreign cell untouched, and allocates
nothing. -/
theorem tsp_hrun_frame {β : Type} [LinearOrderedCommRing β] (env : ℕ → TSP.Problem β) :
    ∀ (ops : List TSP.HOp) (h : TSP.HSolution β) (st : Store ℕ),
      ((TSP.hrun env h st ops).1.problemRef = h.problemRef ∧
       (TSP.hrun env h st ops).1.start = h.start ∧
       (TSP.hrun env h st ops).1.pathRef = h.pathRef ∧
       (TSP.hrun env h st ops).1.usedRef = h.usedRef ∧
       (TSP.hrun env h st ops).1.unusedRef = h.unusedRef) ∧
      (∀ r, r ≠ h.pathRef → r ≠ h.usedRef → r ≠ h.unusedRef →
        (TSP.hrun env h st ops).2.cells r = st.cells r) ∧
      (TSP.hrun env h st ops).2.next = st.next := by
  intro ops
  induction ops with
  | nil => intro h st; exact ⟨⟨rfl, rfl, rfl, rfl, rfl⟩, fun r _ _ _ => rfl, rfl⟩
  | cons op t ih =>
    intro h st
    cases op with
    | addc c =>
      obtain ⟨hrefs, hcells, hnext⟩ := ih (TSP.hadd env h st c).1 (TSP.hadd env h st c).2
      refine ⟨hrefs, ?_, ?_⟩
      · intro r hr1 hr2 hr3
        show (TSP.hrun env (TSP.hadd env h st c).1 (TSP.hadd env h st c).2 t).2.cells r
          = st.cells r
        rw [hcells r hr1 hr2 hr3]
        show (if r = h.unusedRef then _ else if r = h.usedRef then _
          else if r = h.pathRef then _ else st.cells r) = st.cells r
        rw [if_neg hr3, if_neg hr2, if_neg hr1]
      · exact hnext
    | stepm m =>
      obtain ⟨hrefs, hcells, hnext⟩ := ih (TSP.hstep env h st m).1 (TSP.hstep env h st m).2
      refine ⟨hrefs, ?_, ?_⟩
      · intro r hr1 hr2 hr3
        show (TSP.hrun env (TSP.hstep env h st m).1 (TSP.hstep env h st m).2 t).2.cells r
          = st.cells r
        rw [hcells r hr1 hr2 hr3]
        show (if r = h.unusedRef then _ else if r = h.usedRef then _
          else if r = h.pathRef then _ else st.cells r) = st.cells r
        rw [if_neg hr3, if_neg hr2, if_neg hr1]
      · exact hnext

/-- Running any mutation sequence against one orientation heap object leaves
its attribute references and every foreign cell untouched, and allocates
nothing. -/
theorem base_hrun_frame (env : ℕ → Base.Problem) :
    ∀ (ops : List Base.HOp) (h : Base.HSolution) (st : Store ℤ),
      ((Base.hrun env h st ops).1.problemRef = h.problemRef ∧
       (Base.hrun env h st ops).1.containersRef = h.containersRef ∧
       (Base.hrun env h st ops).1.directionsRef = h.directionsRef ∧
       (Base.hrun env h st ops).1.pickedRef = h.pickedRef ∧
       (Base.hrun env h st ops).1.notPickedRef = h.notPickedRef) ∧
      (∀ r, r ≠ h.containersRef → r ≠ h.directionsRef → r ≠ h.pickedRef →
        r ≠ h.notPickedRef →
        (Base.hrun env h st ops).2.cells r = st.cells r) ∧
      (Base.hrun env h st ops).2.next = st.next := by
  intro ops
  induction ops with
  | nil => intro h st; exact ⟨⟨rfl, rfl, rfl, rfl, rfl⟩, fun r _ _ _ _ => rfl, rfl⟩
  | cons op t ih =>
    intro h st
    cases op with
    | addc c =>
      obtain ⟨hrefs, hcells, hnext⟩ := ih (Base.hadd env h st c).1 (Base.hadd env h st c).2
      refine ⟨hrefs, ?_, ?_⟩
      · intro r hr1 hr2 hr3 hr4
        show (Base.hrun env (Base.hadd env h st c).1 (Base.hadd env h st c).2 t).2.cells r
          = st.cells r
        rw [hcells r hr1 hr2 hr3 hr4]
        show (if r = h.notPickedRef then _ else if r = h.pickedRef then _
          else if r = h.directionsRef then _
          else if r = h.containersRef then _ else st.cells r) = st.cells r
        rw [if_neg hr4, if_neg hr3, if_neg hr2, if_neg hr1]
      · exact hnext
    | stepm m =>
      obtain ⟨hrefs, hcells, hnext⟩ := ih (Base.hstep env h st m).1 (Base.hstep env h st m).2
      refine ⟨hrefs, ?_, ?_⟩
      · intro r hr1 hr2 hr3 hr4
        show (Base.hrun env (Base.hstep env h st m).1 (Base.hstep env h st m).2 t).2.cells r
          = st.cells r
        rw [hcells r hr1 hr2 hr3 hr4]
        show (if r = h.notPickedRef then _ else if r = h.pickedRef then _
          else if r = h.directionsRef then _
          else if r = h.containersRef then _ else st.cells r) = st.cells r
        rw [if_neg hr4, if_neg hr3, if_neg hr2, if_neg hr1]
      · exact hnext

/-- Claim C10: mutating the copy of a Solution by any sequence of add and
step operations leaves the original denoted Solution unchanged, in both
variants, while copy and original keep referring to the same Problem
object. -/
theorem c10_copy_independent :
    (∀ (β : Type) [inst : LinearOrderedCommRing β] (env : ℕ → TSP.Problem β)
        (st : Store ℕ) (h : TSP.HSolution β) (ops : List TSP.HOp),
        h.pathRef < st.next → h.usedRef < st.next → h.unusedRef < st.next →
        TSP.hsol env (TSP.hrun env (TSP.hcopy st h).1 (TSP.hcopy st h).2 ops).2 h =
          TSP.hsol env st h ∧
        (TSP.hrun env (TSP.hcopy st h).1 (TSP.hcopy st h).2 ops).1.problemRef =
          h.problemRef) ∧
    (∀ (env : ℕ → Base.Problem) (st : Store ℤ) (h : Base.HSolution)
        (ops : List Base.HOp),
        h.containersRef < st.next → h.directionsRef < st.next →
        h.pickedRef < st.next → h.notPickedRef < st.next →
        Base.hsol env (Base.hrun env (Base.hcopy st h).1 (Base.hcopy st h).2 ops).2 h =
          Base.hsol env st h ∧
        (Base.hrun env (Base.hcopy st h).1 (Base.hcopy st h).2 ops).1.problemRef =
          h.problemRef) := by
  constructor
  · intro β inst env st h ops h1 h2 h3
    obtain ⟨hrefs, hcells, _⟩ :=
      tsp_hrun_frame env ops (TSP.hcopy st h).1 (TSP.hcopy st h).2
    have hcopycells : ∀ r, r < st.next → (TSP.hcopy st h).2.cells r = st.cells r := by
      intro r hr
      show (if r = st.next + 2 then _ else if r = st.next + 1 then _
        else if r = st.next then _ else st.cells r) = st.cells r
      rw [if_neg (by omega), if_neg (by omega), if_neg (by omega)]
    have hread : ∀ r, r < st.next →
        (TSP.hrun env (TSP.hcopy st h).1 (TSP.hcopy st h).2 ops).2.cells r = st.cells r := by
      intro r hr
      rw [hcells r (by omega : r ≠ st.next) (by omega : r ≠ st.next + 1)
        (by omega : r ≠ st.next + 2)]
      exact hcopycells r hr
    constructor
    · unfold TSP.hsol Store.read
      rw [hread h.pathRef h1, hread h.usedRef h2, hread h.unusedRef h3]
    · exact hrefs.1
  · intro env st h ops h1 h2 h3 h4
    obtain ⟨hrefs, hcells, _⟩ :=
      base_hrun_frame env ops (Base.hcopy st h).1 (Base.hcopy st h).2
    have hcopycells : ∀ r, r < st.next → (Base.hcopy st h).2.cells r = st.cells r := by
      intro r hr
      show (if r = st.next + 3 then _ else if r = st.next + 2 then _
        else if r = st.next + 1 then _ else if r = st.next then _
        else st.cells r) = st.cells r
      rw [if_neg (by omega), if_neg (by omega), if_neg (by omega), if_neg (by omega)]
    have hread : ∀ r, r < st.next →
        (Base.hrun env (Base.hcopy st h).1 (Base.hcopy st h).2 ops).2.cells r
          = st.cells r := by
      intro r hr
      rw [hcells r (by omega : r ≠ st.next) (by omega : r ≠ st.next + 1)
        (by omega : r ≠ st.next + 2) (by omega : r ≠ st.next + 3)]
      exact hcopycells r hr
    constructor
    · unfold Base.hsol Store.read
      rw [hread h.containersRef h1, hread h.directionsRef h2, hread h.pickedRef h3,
        hread h.notPickedRef h4]
    · exact hrefs.1

/-- Witness for c10_copy_independent on concrete heaps of both variants. -/
theorem c10_copy_independent_witness :
    (TSP.hsol (fun _ => Pq3) (TSP.hrun (fun _ => Pq3) (TSP.hcopy stT hT).1
        (TSP.hcopy stT hT).2 [TSP.HOp.addc ⟨0, 1⟩, TSP.HOp.stepm ⟨1, 3⟩]).2 hT =
      TSP.hsol (fun _ => Pq3) stT hT) ∧
    (TSP.hrun (fun _ => Pq3) (TSP.hcopy stT hT).1 (TSP.hcopy stT hT).2
        [TSP.HOp.addc ⟨0, 1⟩, TSP.HOp.stepm ⟨1, 3⟩]).1.problemRef = hT.problemRef ∧
    (Base.hsol (fun _ => Pb2) (Base.hrun (fun _ => Pb2) (Base.hcopy stB hB).1
        (Base.hcopy stB hB).2 [Base.HOp.addc ⟨0, 0⟩]).2 hB =
      Base.hsol (fun _ => Pb2) stB hB) ∧
    (Base.hrun (fun _ => Pb2) (Base.hcopy stB hB).1 (Base.hcopy stB hB).2
        [Base.HOp.addc ⟨0, 0⟩]).1.problemRef = hB.problemRef :=
  ⟨(c10_copy_independent.1 ℤ (fun _ => Pq3) stT hT
      [TSP.HOp.addc ⟨0, 1⟩, TSP.HOp.stepm ⟨1, 3⟩] (by decide) (by decide) (by decide)).1,
   (c10_copy_independent.1 ℤ (fun _ => Pq3) stT hT
      [TSP.HOp.addc ⟨0, 1⟩, TSP.HOp.stepm ⟨1, 3⟩] (by decide) (by decide) (by decide)).2,
   (c10_copy_independent.2 (fun _ => Pb2) stB hB [Base.HOp.addc ⟨0, 0⟩]
      (by decide) (by decide) (by decide) (by decide)).1,
   (c10_copy_independent.2 (fun _ => Pb2) stB hB [Base.HOp.addc ⟨0, 0⟩]
      (by decide) (by decide) (by decide) (by decide)).2⟩

/-- getD through take: positions below the cut are unchanged. -/
theorem list_getD_take {γ : Type} (l : List γ) (k n : ℕ) (d : γ)
    (h1 : n < k) (h2 : n < l.length) : (l.take k).getD n d = l.getD n d := by
  rw [List.getD_eq_getElem _ _ (by rw [List.length_take]; omega),
    List.getD_eq_getElem _ _ h2]
  exact List.getElem_take l

/-- getD through drop: positions shift by the cut. -/
theorem list_getD_drop {γ : Type} (l : List γ) (k n : ℕ) (d : γ)
    (h : k + n < l.length) : (l.drop k).getD n d = l.getD (k + n) d := by
  rw [List.getD_eq_getElem _ _ (by rw [List.length_drop]; omega),
    List.getD_eq_getElem _ _ h]
  exact List.getElem_drop l

/-- getD through reverse: positions mirror. -/
theorem list_getD_reverse {γ : Type} (l : List γ) (n : ℕ) (d : γ)
    (h : n < l.length) : (l.reverse).getD n d = l.getD (l.length - 1 - n) d := by
  rw [List.getD_eq_getElem _ _ (by rw [List.length_reverse]; omega),
    List.getD_eq_getElem _ _ (by omega)]
  exact List.getElem_reverse (by rw [List.length_reverse]; omega)

/-- What the four boundary reads of step see on the reversed path: position
i - 1 is unchanged, position i now holds the old position j - 1 (the end of
the reversed slice), position j - 1 now holds the old position i, position j
is unchanged, and the length is preserved. -/
theorem tsp_step_reads {β : Type} [LinearOrderedCommRing β] (s : TSP.Solution β)
    (m : TSP.LocalMove) (h1 : 1 ≤ m.i) (h2 : m.i + 2 ≤ m.j) (h3 : m.j < s.path.length) :
    (s.step m).path.getD (m.i - 1) 0 = s.path.getD (m.i - 1) 0 ∧
    (s.step m).path.getD m.i 0 = s.path.getD (m.j - 1) 0 ∧
    (s.step m).path.getD (m.j - 1) 0 = s.path.getD m.i 0 ∧
    (s.step m).path.getD m.j 0 = s.path.getD m.j 0 ∧
    (s.step m).path.length = s.path.length := by
  have hstep : (s.step m).path =
      s.path.take m.i ++ ((s.path.drop m.i).take (m.j - m.i)).reverse ++ s.path.drop m.j :=
    rfl
  have hB : ((s.path.drop m.i).take (m.j - m.i)).length = m.j - m.i := by
    rw [List.length_take, List.length_drop]
    omega
  refine ⟨?_, ?_, ?_, ?_, ?_⟩
  · rw [hstep,
      List.getD_append _ _ _ _ (by
        simp only [List.length_append, List.length_take, List.length_reverse,
          List.length_drop]
        omega),
      List.getD_append _ _ _ _ (by simp only [List.length_take]; omega)]
    exact list_getD_take s.path m.i (m.i - 1) 0 (by omega) (by omega)
  · rw [hstep,
      List.getD_append _ _ _ _ (by
        simp only [List.length_append, List.length_take, List.length_reverse,
          List.length_drop]
        omega),
      List.getD_append_right _ _ _ _ (by simp only [List.length_take]; omega)]
    rw [List.length_take]
    rw [list_getD_reverse _ _ _ (by rw [hB]; omega)]
    rw [hB]
    rw [list_getD_take _ _ _ _ (by omega) (by rw [List.length_drop]; omega)]
    rw [list_getD_drop _ _ _ _ (by omega)]
    congr 1
    omega
  · rw [hstep,
      List.getD_append _ _ _ _ (by
        simp only [List.length_append, List.length_take, List.length_reverse,
          List.length_drop]
        omega),
      List.getD_append_right _ _ _ _ (by simp only [List.length_take]; omega)]
    rw [List.length_take]
    rw [list_getD_reverse _ _ _ (by rw [hB]; omega)]
    rw [hB]
    rw [list_getD_take _ _ _ _ (by omega) (by rw [List.length_drop]; omega)]
    rw [list_getD_drop _ _ _ _ (by omega)]
    congr 1
    omega
  · rw [hstep,
      List.getD_append_right _ _ _ _ (by
        simp only [List.length_append, List.length_take, List.length_reverse,
          List.length_drop]
        omega)]
    rw [List.length_append, List.length_take, List.length_reverse, hB]
    rw [list_getD_drop _ _ _ _ (by omega)]
    congr 1
    omega
  · rw [hstep, List.length_append, List.length_append, List.length_take,
      List.length_reverse, hB, List.length_drop]
    omega

/-- In the closed-tour variant, step changes the stored dist by exactly the
increment objective_incr_local reports, for every move local_moves yields. -/
theorem tsp_step_dist_eq {β : Type} [LinearOrderedCommRing β] (s : TSP.Solution β)
    (m : TSP.LocalMove) (hm : m ∈ s.local_moves) :
    (s.step m).dist = s.dist + s.objective_incr_local m := by
  rw [tsp_mem_local_moves] at hm
  obtain ⟨h1, h2, h3⟩ := hm
  obtain ⟨hb, hc, hd, he, _⟩ := tsp_step_reads s m h1 h2 h3
  have hdist : (s.step m).dist = s.dist
      - s.problem.dist (s.path.getD (m.i - 1) 0) (s.path.getD m.i 0)
      - s.problem.dist (s.path.getD (m.j - 1) 0) (s.path.getD m.j 0)
      + s.problem.dist ((s.step m).path.getD (m.i - 1) 0) ((s.step m).path.getD m.i 0)
      + s.problem.dist ((s.step m).path.getD (m.j - 1) 0) ((s.step m).path.getD m.j 0) :=
    rfl
  rw [hdist, hb, hc, hd, he]
  unfold TSP.Solution.objective_incr_local
  ring

/-- Claim C1 holds for the closed-tour variant: on a complete tour the pure
delta routine reports exactly the objective change a step produces. -/
theorem tsp_objective_incr_local_exact {β : Type} [LinearOrderedCommRing β]
    (s : TSP.Solution β) (m : TSP.LocalMove) (hm : m ∈ s.local_moves)
    (hcomp : s.path.length = s.problem.nnodes + 1) :
    s.objective = some s.dist ∧
    (s.step m).objective = some (s.dist + s.objective_incr_local m) := by
  have hmm := hm
  rw [tsp_mem_local_moves] at hmm
  obtain ⟨h1, h2, h3⟩ := hmm
  constructor
  · unfold TSP.Solution.objective
    rw [if_pos hcomp]
  · have hlen : (s.step m).path.length = s.path.length :=
      (tsp_step_reads s m h1 h2 h3).2.2.2.2
    unfold TSP.Solution.objective
    rw [if_pos (show (s.step m).path.length = (s.step m).problem.nnodes + 1 by
      rw [hlen, hcomp]; rfl)]
    rw [tsp_step_dist_eq s m hm]

/-- Unfolding pairSum on two leading elements. -/
theorem tsp_pairSum_cons2 {β : Type} [LinearOrderedCommRing β] (p : TSP.Problem β)
    (a b : ℕ) (t : List ℕ) :
    TSP.pairSum p (a :: b :: t) = p.dist a b + TSP.pairSum p (b :: t) := rfl

/-- pairSum across an append: the two parts plus the crossing edge. -/
theorem tsp_pairSum_append {β : Type} [LinearOrderedCommRing β] (p : TSP.Problem β) :
    ∀ (l₁ l₂ : List ℕ), l₁ ≠ [] → l₂ ≠ [] →
      TSP.pairSum p (l₁ ++ l₂) =
        TSP.pairSum p l₁ + p.dist (l₁.getD (l₁.length - 1) 0) (l₂.getD 0 0) +
          TSP.pairSum p l₂ := by
  intro l₁
  induction l₁ with
  | nil => intro l₂ h _; exact absurd rfl h
  | cons a t ih =>
    intro l₂ h1 h2
    obtain ⟨b, t2, rfl⟩ := List.exists_cons_of_ne_nil h2
    cases t with
    | nil =>
      rw [List.singleton_append, tsp_pairSum_cons2]
      simp [TSP.pairSum]
    | cons c t3 =>
      rw [List.cons_append, List.cons_append, tsp_pairSum_cons2, ← List.cons_append,
        ih (b :: t2) (by simp) (by simp)]
      rw [tsp_pairSum_cons2]
      have hidx : (a :: c :: t3).length - 1 = ((c :: t3).length - 1) + 1 := by
        simp
      rw [hidx, List.getD_cons_succ]
      ring

/-- pairSum across a double append: the three parts plus both crossing edges. -/
theorem tsp_pairSum_three {β : Type} [LinearOrderedCommRing β] (p : TSP.Problem β)
    (A B C : List ℕ) (hA : A ≠ []) (hB : B ≠ []) (hC : C ≠ []) :
    TSP.pairSum p (A ++ B ++ C) =
      TSP.pairSum p A + p.dist (A.getD (A.length - 1) 0) (B.getD 0 0) +
      TSP.pairSum p B + p.dist (B.getD (B.length - 1) 0) (C.getD 0 0) +
      TSP.pairSum p C := by
  rw [List.append_assoc]
  rw [tsp_pairSum_append p A (B ++ C) hA (fun h => hB (List.append_eq_nil.mp h).1)]
  rw [tsp_pairSum_append p B C hB hC]
  rw [List.getD_append _ _ _ _ (List.length_pos.mpr hB)]
  ring

/-- With a symmetric distance table, reversing a path keeps its pairSum. -/
theorem tsp_pairSum_reverse {β : Type} [LinearOrderedCommRing β] (p : TSP.Problem β)
    (hsym : ∀ a b, p.dist a b = p.dist b a) :
    ∀ l : List ℕ, TSP.pairSum p l.reverse = TSP.pairSum p l := by
  intro l
  induction l with
  | nil => rfl
  | cons a t ih =>
    cases t with
    | nil => rfl
    | cons b t2 =>
      rw [List.reverse_cons]
      rw [tsp_pairSum_append p ((b :: t2).reverse) [a] (by simp) (by simp)]
      rw [ih]
      rw [List.length_reverse]
      rw [list_getD_reverse _ _ _ (by simp)]
      have hidx : (b :: t2).length - 1 - ((b :: t2).length - 1) = 0 := by omega
      rw [hidx, List.getD_cons_zero, List.getD_cons_zero, tsp_pairSum_cons2]
      have h0 : TSP.pairSum p [a] = 0 := rfl
      rw [h0, hsym b a]
      ring

/-- On a nonempty list getLastD is the entry at the last index. -/
theorem list_getLastD_eq_getD {γ : Type} :
    ∀ (l : List γ) (d : γ), l ≠ [] → l.getLastD d = l.getD (l.length - 1) d := by
  intro l
  induction l with
  | nil => intro d h; exact absurd rfl h
  | cons a t ih =>
    intro d _
    cases t with
    | nil => rfl
    | cons b t2 =>
      rw [List.getLastD_cons, ih a (by simp)]
      have hidx : (a :: b :: t2).length - 1 = ((b :: t2).length - 1) + 1 := by simp
      rw [hidx, List.getD_cons_succ]
      rw [List.getD_eq_getElem _ _ (by simp), List.getD_eq_getElem _ _ (by simp)]

/-- tsp.py add always appends the component target to the path, also on the
error path. -/
theorem tsp_add_path {β : Type} [LinearOrderedCommRing β] (s : TSP.Solution β)
    (c : TSP.Component) : (s.add c).path = s.path ++ [c.v] := by
  unfold TSP.Solution.add TSP.Solution.addRun
  dsimp only
  split_ifs <;> rfl

/-- Adding a component produced by add_moves keeps the accumulated dist
equal to the recomputed pairSum of the path. -/
theorem tsp_add_keeps_pairSum {β : Type} [LinearOrderedCommRing β] (s : TSP.Solution β)
    (c : TSP.Component) (hne : s.path ≠ []) (hc : c ∈ s.add_moves)
    (hinv : s.dist = TSP.pairSum s.problem s.path) :
    (s.add c).dist = TSP.pairSum s.problem (s.add c).path := by
  have hspec : c.u = s.path.getLastD 0 ∧
      (s.add c).dist = s.dist + s.problem.dist c.u c.v := by
    unfold TSP.Solution.add_moves at hc
    split_ifs at hc with hl1 hl2
    · obtain ⟨v, hv, hev⟩ := List.mem_map.mp hc
      cases hev
      refine ⟨rfl, ?_⟩
      unfold TSP.Solution.add TSP.Solution.addRun
      dsimp only
      by_cases hvs : v ≠ s.start
      · rw [if_pos hvs, if_pos (show v ∈ s.unused from hv)]
      · rw [if_neg hvs]
    · rw [List.mem_singleton] at hc
      cases hc
      refine ⟨rfl, ?_⟩
      unfold TSP.Solution.add TSP.Solution.addRun
      dsimp only
      rw [if_neg (show ¬ s.start ≠ s.start by simp)]
    · cases hc
  obtain ⟨hu, hdist⟩ := hspec
  rw [hdist, tsp_add_path, hinv, hu]
  rw [tsp_pairSum_append s.problem s.path [c.v] hne (by simp)]
  rw [list_getLastD_eq_getD s.path 0 hne]
  have h0 : TSP.pairSum s.problem [c.v] = 0 := rfl
  rw [h0, List.getD_cons_zero]
  ring

/-- Stepping with a move from local_moves keeps the accumulated dist equal
to the recomputed pairSum of the path, for a symmetric distance table: the
reversed slice keeps its internal cost and only the two crossing edges are
exchanged, which is exactly the update step performs. -/
theorem tsp_step_keeps_pairSum {β : Type} [LinearOrderedCommRing β] (s : TSP.Solution β)
    (m : TSP.LocalMove) (hsym : ∀ a b, s.problem.dist a b = s.problem.dist b a)
    (hm : m ∈ s.local_moves) (hinv : s.dist = TSP.pairSum s.problem s.path) :
    (s.step m).dist = TSP.pairSum s.problem (s.step m).path := by
  have hm0 := hm
  rw [tsp_mem_local_moves] at hm0
  obtain ⟨h1, h2, h3⟩ := hm0
  have hAlen : (s.path.take m.i).length = m.i := by
    rw [List.length_take]
    omega
  have hSlen : ((s.path.drop m.i).take (m.j - m.i)).length = m.j - m.i := by
    rw [List.length_take, List.length_drop]
    omega
  have hAne : s.path.take m.i ≠ [] := by
    intro h
    rw [h] at hAlen
    simp at hAlen
    omega
  have hSne : (s.path.drop m.i).take (m.j - m.i) ≠ [] := by
    intro h
    rw [h] at hSlen
    simp at hSlen
    omega
  have hSrne : ((s.path.drop m.i).take (m.j - m.i)).reverse ≠ [] := by
    simpa using hSne
  have hCne : s.path.drop m.j ≠ [] := by
    intro h
    have := congrArg List.length h
    rw [List.length_drop] at this
    simp at this
    omega
  have hpdec : s.path = s.path.take m.i ++ (s.path.drop m.i).take (m.j - m.i)
      ++ s.path.drop m.j := by
    have h5 : (s.path.drop m.i).drop (m.j - m.i) = s.path.drop m.j := by
      rw [List.drop_drop]
      congr 1
      omega
    rw [List.append_assoc, ← h5, List.take_append_drop, List.take_append_drop]
  have hnew : (s.step m).path = s.path.take m.i
      ++ ((s.path.drop m.i).take (m.j - m.i)).reverse ++ s.path.drop m.j := rfl
  have e1 : (s.path.take m.i).getD ((s.path.take m.i).length - 1) 0
      = s.path.getD (m.i - 1) 0 := by
    rw [hAlen]
    exact list_getD_take s.path m.i (m.i - 1) 0 (by omega) (by omega)
  have e2 : ((s.path.drop m.i).take (m.j - m.i)).getD 0 0 = s.path.getD m.i 0 := by
    rw [list_getD_take _ _ _ _ (by omega) (by rw [List.length_drop]; omega)]
    rw [list_getD_drop _ _ _ _ (by omega)]
    congr 1
  have e3 : ((s.path.drop m.i).take (m.j - m.i)).getD
      (((s.path.drop m.i).take (m.j - m.i)).length - 1) 0 = s.path.getD (m.j - 1) 0 := by
    rw [hSlen]
    rw [list_getD_take _ _ _ _ (by omega) (by rw [List.length_drop]; omega)]
    rw [list_getD_drop _ _ _ _ (by omega)]
    congr 1
    omega
  have e4 : (s.path.drop m.j).getD 0 0 = s.path.getD m.j 0 := by
    rw [list_getD_drop _ _ _ _ (by omega)]
    congr 1
  have e5 : (((s.path.drop m.i).take (m.j - m.i)).reverse).getD 0 0
      = s.path.getD (m.j - 1) 0 := by
    rw [list_getD_reverse _ _ _ (by rw [hSlen]; omega)]
    rw [hSlen]
    rw [list_getD_take _ _ _ _ (by omega) (by rw [List.length_drop]; omega)]
    rw [list_getD_drop _ _ _ _ (by omega)]
    congr 1
    omega
  have e6 : (((s.path.drop m.i).take (m.j - m.i)).reverse).getD
      ((((s.path.drop m.i).take (m.j - m.i)).reverse).length - 1) 0
      = s.path.getD m.i 0 := by
    rw [List.length_reverse]
    rw [list_getD_reverse _ _ _ (by rw [hSlen]; omega)]
    rw [hSlen]
    have hidx : m.j - m.i - 1 - (m.j - m.i - 1) = 0 := by omega
    rw [hidx]
    rw [list_getD_take _ _ _ _ (by omega) (by rw [List.length_drop]; omega)]
    rw [list_getD_drop _ _ _ _ (by omega)]
    congr 1
  have hrev : TSP.pairSum s.problem (((s.path.drop m.i).take (m.j - m.i)).reverse)
      = TSP.pairSum s.problem ((s.path.drop m.i).take (m.j - m.i)) :=
    tsp_pairSum_reverse s.problem hsym _
  have hdold : s.dist = TSP.pairSum s.problem (s.path.take m.i)
      + s.problem.dist (s.path.getD (m.i - 1) 0) (s.path.getD m.i 0)
      + TSP.pairSum s.problem ((s.path.drop m.i).take (m.j - m.i))
      + s.problem.dist (s.path.getD (m.j - 1) 0) (s.path.getD m.j 0)
      + TSP.pairSum s.problem (s.path.drop m.j) := by
    rw [hinv]
    conv_lhs => rw [hpdec]
    rw [tsp_pairSum_three s.problem _ _ _ hAne hSne hCne, e1, e2, e3, e4]
  have hdnew : TSP.pairSum s.problem (s.step m).path
      = TSP.pairSum s.problem (s.path.take m.i)
      + s.problem.dist (s.path.getD (m.i - 1) 0) (s.path.getD (m.j - 1) 0)
      + TSP.pairSum s.problem ((s.path.drop m.i).take (m.j - m.i))
      + s.problem.dist (s.path.getD m.i 0) (s.path.getD m.j 0)
      + TSP.pairSum s.problem (s.path.drop m.j) := by
    rw [hnew]
    rw [tsp_pairSum_three s.problem _ _ _ hAne hSrne hCne, e1, e5, e6, e4, hrev]
  rw [tsp_step_dist_eq s m hm, hdnew, hdold]
  unfold TSP.Solution.objective_incr_local
  ring

/-- The dist of an empty solution already matches its recomputed pairSum, so
with tsp_add_keeps_pairSum and tsp_step_keeps_pairSum the closed-tour
variant maintains the accumulated-cost invariant of claim C2 along every
mutation sequence. -/
theorem tsp_empty_keeps_pairSum {β : Type} [LinearOrderedCommRing β] (p : TSP.Problem β) :
    (p.empty_solution).dist = TSP.pairSum p (p.empty_solution).path := rfl

/-- getLastD ignores its default on a cons with nonempty tail. -/
theorem list_getLastD_cons_of_ne_nil {γ : Type} (x : γ) (zs : List γ) (d1 d2 : γ)
    (h : zs ≠ []) : (x :: zs).getLastD d1 = zs.getLastD d2 := by
  cases zs with
  | nil => exact absurd rfl h
  | cons z t =>
    rw [List.getLastD_cons, List.getLastD_eq_getLast?, List.getLastD_eq_getLast?]
    obtain ⟨w, hw⟩ := Option.isSome_iff_exists.mp
      (show (z :: t).getLast?.isSome from List.getLast?_isSome.mpr (by simp))
    rw [hw]
    rfl

/-- transSum across appending one element: the old sum plus the transition
from the old last pair. -/
theorem base_transSum_append (s : Base.Solution) :
    ∀ (zs : List (ℤ × ℤ)) (ab : ℤ × ℤ), zs ≠ [] →
      Base.transSum s (zs ++ [ab]) =
        Base.transSum s zs +
          s.connection_cost ⟨(zs.getLastD (0, 0)).1, (zs.getLastD (0, 0)).2⟩ ⟨ab.1, ab.2⟩ := by
  intro zs
  induction zs with
  | nil => intro ab h; exact absurd rfl h
  | cons x t ih =>
    intro ab _
    obtain ⟨x1, x2⟩ := x
    obtain ⟨a, b⟩ := ab
    cases t with
    | nil =>
      have h1 : Base.transSum s [(x1, x2), (a, b)] =
          s.connection_cost ⟨x1, x2⟩ ⟨a, b⟩ + Base.transSum s [(a, b)] := rfl
      have h2 : Base.transSum s [(a, b)] = 0 := rfl
      have h3 : Base.transSum s [(x1, x2)] = 0 := rfl
      show Base.transSum s [(x1, x2), (a, b)] = _
      rw [h1, h2, h3]
      simp
    | cons y t2 =>
      obtain ⟨y1, y2⟩ := y
      have h1 : Base.transSum s ((x1, x2) :: (y1, y2) :: t2 ++ [(a, b)]) =
          s.connection_cost ⟨x1, x2⟩ ⟨y1, y2⟩ +
            Base.transSum s ((y1, y2) :: t2 ++ [(a, b)]) := rfl
      have h2 : Base.transSum s ((x1, x2) :: (y1, y2) :: t2) =
          s.connection_cost ⟨x1, x2⟩ ⟨y1, y2⟩ + Base.transSum s ((y1, y2) :: t2) := rfl
      rw [h1, ih (a, b) (by simp), h2]
      rw [list_getLastD_cons_of_ne_nil (x1, x2) ((y1, y2) :: t2) (0, 0) (0, 0) (by simp)]
      ring

/-- The zip of two equal-length sequences ends on the pair of their last
entries. -/
theorem base_zip_getLastD :
    ∀ (l1 l2 : List ℤ), l1.length = l2.length → l1 ≠ [] →
      ((l1.zip l2).getLastD (0, 0)) = (l1.getLastD 0, l2.getLastD 0) := by
  intro l1
  induction l1 with
  | nil => intro l2 _ hne; exact absurd rfl hne
  | cons a t ih =>
    intro l2 hlen hne
    obtain ⟨b, u, rfl⟩ := List.exists_cons_of_ne_nil
      (show l2 ≠ [] by
        intro h
        rw [h] at hlen
        simp at hlen)
    cases t with
    | nil =>
      have hu : u = [] := by
        simp at hlen
        exact hlen
      rw [hu]
      rfl
    | cons c t2 =>
      obtain ⟨d, u2, rfl⟩ := List.exists_cons_of_ne_nil
        (show u ≠ [] by
          intro h
          rw [h] at hlen
          simp at hlen)
      have hzip : (a :: c :: t2).zip (b :: d :: u2) = (a, b) :: (c :: t2).zip (d :: u2) := rfl
      rw [hzip]
      rw [list_getLastD_cons_of_ne_nil (a, b) ((c :: t2).zip (d :: u2)) (0, 0) (0, 0)
        (by simp [List.zip])]
      rw [ih (d :: u2) (by simp at hlen ⊢; omega) (by simp)]
      rw [list_getLastD_cons_of_ne_nil a (c :: t2) 0 0 (by simp),
        list_getLastD_cons_of_ne_nil b (d :: u2) 0 0 (by simp)]

/-- base.py add keeps obj_value equal to the recomputed sequence cost (also
on the error path, whose state has already been extended): within claim C2
only step breaks the accumulated-cost invariant of the orientation
variant. -/
theorem base_add_keeps_sequence_cost (s : Base.Solution) (c : Base.Component)
    (hlen : s.containers.length = s.directions.length)
    (hinv : s.obj_value = s.sequence_cost) :
    (s.add c).obj_value = (s.add c).sequence_cost := by
  have hfields : (s.add c).containers = s.containers ++ [c.node] ∧
      (s.add c).directions = s.directions ++ [c.direction] ∧
      (s.add c).obj_value = s.obj_value +
        (if s.containers.isEmpty then s.problem.depot_to_container c.direction c.node
         else s.connection_cost ⟨s.containers.getLastD 0, s.directions.getLastD 0⟩ c) ∧
      (s.add c).problem = s.problem := by
    unfold Base.Solution.add Base.Solution.addRun
    dsimp only
    split_ifs <;> exact ⟨rfl, rfl, rfl, rfl⟩
  obtain ⟨hcs, hds, hov, hpr⟩ := hfields
  have hcc : ∀ (x y : Base.Component),
      (s.add c).connection_cost x y = s.connection_cost x y := by
    intro x y
    unfold Base.Solution.connection_cost
    rw [hpr]
  have htsame : ∀ zs : List (ℤ × ℤ),
      Base.transSum (s.add c) zs = Base.transSum s zs := by
    intro zs
    induction zs with
    | nil => rfl
    | cons x t iht =>
      obtain ⟨x1, x2⟩ := x
      cases t with
      | nil => rfl
      | cons y t2 =>
        obtain ⟨y1, y2⟩ := y
        have ha : Base.transSum (s.add c) ((x1, x2) :: (y1, y2) :: t2) =
            (s.add c).connection_cost ⟨x1, x2⟩ ⟨y1, y2⟩ +
              Base.transSum (s.add c) ((y1, y2) :: t2) := rfl
        have hb : Base.transSum s ((x1, x2) :: (y1, y2) :: t2) =
            s.connection_cost ⟨x1, x2⟩ ⟨y1, y2⟩ +
              Base.transSum s ((y1, y2) :: t2) := rfl
        rw [ha, hb, iht, hcc]
  have hzip : (s.add c).containers.zip (s.add c).directions =
      s.containers.zip s.directions ++ [(c.node, c.direction)] := by
    rw [hcs, hds, List.zip_append hlen]
    rfl
  cases hcempty : s.containers with
  | nil =>
    have hdempty : s.directions = [] := by
      rw [hcempty] at hlen
      exact List.eq_nil_of_length_eq_zero (by simp at hlen; omega)
    unfold Base.Solution.sequence_cost
    rw [hzip, hcempty, hdempty]
    show (s.add c).obj_value =
      (s.add c).problem.depot_to_container c.direction c.node +
        Base.transSum (s.add c) [(c.node, c.direction)]
    have ht : Base.transSum (s.add c) [(c.node, c.direction)] = 0 := rfl
    have h0 : s.obj_value = 0 := by
      rw [hinv]
      unfold Base.Solution.sequence_cost
      rw [hcempty]
      rfl
    have hempty : s.containers.isEmpty = true := by rw [hcempty]; rfl
    rw [ht, hov, hpr, if_pos hempty, h0]
    ring
  | cons c0 t0 =>
    have hcne : s.containers ≠ [] := by rw [hcempty]; simp
    have hdne : s.directions ≠ [] := by
      intro h
      rw [h, hcempty] at hlen
      simp at hlen
    obtain ⟨d0, t1, hdeq⟩ := List.exists_cons_of_ne_nil hdne
    have hzcons : s.containers.zip s.directions = (c0, d0) :: (t0.zip t1) := by
      rw [hcempty, hdeq]
      rfl
    have hzne : s.containers.zip s.directions ≠ [] := by
      rw [hzcons]
      simp
    unfold Base.Solution.sequence_cost
    rw [hzip, hzcons]
    show (s.add c).obj_value =
      (s.add c).problem.depot_to_container d0 c0 +
        Base.transSum (s.add c) (((c0, d0) :: t0.zip t1) ++ [(c.node, c.direction)])
    rw [← hzcons,
      base_transSum_append (s.add c) (s.containers.zip s.directions)
        (c.node, c.direction) hzne,
      base_zip_getLastD s.containers s.directions hlen hcne,
      hcc, htsame, hov, hpr]
    have hseq : s.obj_value = s.problem.depot_to_container d0 c0 +
        Base.transSum s (s.containers.zip s.directions) := by
      rw [hinv]
      unfold Base.Solution.sequence_cost
      rw [hzcons]
    have hnonempty : s.containers.isEmpty = false := by rw [hcempty]; rfl
    rw [hnonempty]
    simp only [Bool.false_eq_true, if_false]
    rw [hseq]
    ring

end S3

